import Mathlib

/-!
Verification of the transcript-to-embedding processing core of the
`piazza-bot` repository (Go sources under `processor/`).

The Go code is shallowly embedded: pure functions become Lean functions,
`float32` arithmetic is modelled exactly over `ℚ`, Go slices become lists,
`nil` slices become `Option`, and fallible functions return `Except`.
The external tokenizer (`sugarme/tokenizer`) and the ONNX inference engine
are modelled as function parameters, since their behaviour is not part of
this repository.
-/

namespace Piazza

/-- A single subtitle line with its enclosing time range (`Frame` in `types.go`). -/
structure Frame where
  Text : String
  StartTime : String
  EndTime : String
deriving DecidableEq, Repr

/-- A complete sentence (`Sentence` in `types.go`).  A `nil` Go embedding slice
is modelled as `none`. -/
structure Sentence where
  Text : String
  StartTime : String
  Embedding : Option (List ℚ)
  TokenCount : ℕ
deriving DecidableEq, Repr

/-- A semantically grouped run of sentences (`Chunk` in `types.go`). -/
structure Chunk where
  Text : String
  StartTime : String
  Embedding : Option (List ℚ)
  NumSentences : ℕ
  TokenCount : ℕ
  ChunkIndex : ℕ
  SentenceEmbeddings : List (Option (List ℚ))
deriving DecidableEq, Repr

/-- Tunable parameters of the chunking algorithm (`ChunkingConfig` in `config.go`).
Token sizes are Go `int`s holding token counts, modelled as `ℕ`;
the two `float32` weights are modelled as `ℚ`. -/
structure ChunkingConfig where
  OptimalSize : ℕ
  MaxSize : ℕ
  LambdaSize : ℚ
  ChunkPenalty : ℚ
deriving DecidableEq, Repr

/-- Embedding model configuration (`EmbeddingConfig` in `config.go`). -/
structure EmbeddingConfig where
  MaxBatchTokens : ℕ
deriving DecidableEq, Repr

/-- `DefaultChunkingConfig` from `config.go`: the literals written in the source. -/
def DefaultChunkingConfig : ChunkingConfig :=
  { OptimalSize := 470, MaxSize := 512, LambdaSize := 2, ChunkPenalty := 1 }

/-- `DefaultEmbeddingConfig` from `config.go`. -/
def DefaultEmbeddingConfig : EmbeddingConfig :=
  { MaxBatchTokens := 6000 }

/-! ## Go string primitives

The Go standard-library string functions used by the parser are modelled on
character lists (`String.data`), so that every definition is structural and
evaluates inside the kernel. -/

/-- Characters treated as whitespace by `strings.TrimSpace` (the ASCII
whitespace actually occurring in SRT input). -/
def trimChars (l : List Char) : List Char :=
  ((l.dropWhile Char.isWhitespace).reverse.dropWhile Char.isWhitespace).reverse

/-- `strings.TrimSpace`. -/
def trimS (s : String) : String := String.mk (trimChars s.data)

/-- The scanning loop of `strings.Split`: when `skip` is positive the scanner
is still consuming the matched separator; otherwise a separator occurrence
cuts the current piece. -/
def splitGo (sep : List Char) : List Char → List Char → ℕ → List (List Char)
  | [], cur, _ => [cur]
  | _ :: rest, cur, skip + 1 => splitGo sep rest cur skip
  | c :: rest, cur, 0 =>
    if sep.isPrefixOf (c :: rest) then cur :: splitGo sep rest [] (sep.length - 1)
    else splitGo sep rest (cur ++ [c]) 0

/-- `strings.Split` for a non-empty separator: the non-overlapping
left-to-right split. -/
def splitOnS (s sep : String) : List String :=
  (splitGo sep.data s.data [] 0).map String.mk

/-- `strings.HasSuffix`. -/
def endsWithS (s suffix : String) : Bool :=
  List.isSuffixOf suffix.data s.data

/-! ## SRT parsing (`srt_parser.go`) -/

/-- `isDigitOnly` from `srt_parser.go`: true when the string is non-empty and
every rune is an ASCII digit. -/
def isDigitOnly (s : String) : Bool :=
  s.toList.all Char.isDigit && !s.isEmpty

/-- The line-by-line loop of `ParseSRT`: skip blank lines and sequence numbers,
absorb time-range lines (a line containing `-->`; the start/end update happens
only when the split yields exactly two parts), and turn every other line into
a frame carrying the current start/end times. -/
def parseLines : List String → String → String → List Frame
  | [], _, _ => []
  | line :: rest, st, en =>
    let l := trimS line
    if l = "" then parseLines rest st en
    else if isDigitOnly l then parseLines rest st en
    else
      let parts := splitOnS l "-->"
      if parts.length ≥ 2 then
        if parts.length = 2 then
          parseLines rest (trimS (parts.getD 0 "")) (trimS (parts.getD 1 ""))
        else parseLines rest st en
      else { Text := l, StartTime := st, EndTime := en } :: parseLines rest st en

/-- `ParseSRT` from `srt_parser.go`: empty input yields no frames, otherwise the
input is split on newlines and scanned line by line. -/
def ParseSRT (s : String) : List Frame :=
  if s = "" then [] else parseLines (splitOnS s "\n") "" ""

/-- A trimmed input line is a subtitle text line when it is non-blank, not a
sequence number, and not a time range (this mirrors the spec's description of
"the input's non-sequence-number, non-time-range lines"). -/
def keepLine (l : String) : Bool :=
  !(l == "") && !isDigitOnly l && (splitOnS l "-->").length == 1

/-- The subtitle text lines of an SRT input, in order (spec-side definition
for the round-trip property). -/
def subtitleLines (s : String) : List String :=
  ((splitOnS s "\n").map trimS).filter keepLine

/-! ## Sentence assembly (`srt_parser.go`, `ExtractSentencesFromFrames`) -/

/-- Whether a (trimmed) frame text terminates a sentence: ends with `.`, `!` or `?`. -/
def endsSentence (t : String) : Bool :=
  endsWithS t "." || endsWithS t "!" || endsWithS t "?"

/-- The frame loop of `ExtractSentencesFromFrames`.  State: the string builder
`acc`, the current sentence's anchor `st`, and the `isFirstFrame` flag.
The external tokenizer's `CountTokens` is the parameter `tok`. -/
def assembleGo (tok : String → ℕ) : List Frame → String → String → Bool → List Sentence
  | [], acc, st, _ =>
    if acc = "" then [] else [{ Text := acc, StartTime := st, Embedding := none, TokenCount := tok acc }]
  | f :: rest, acc, st, isFirst =>
    let st' := if isFirst then f.StartTime else st
    let acc' := if acc = "" then f.Text else acc ++ " " ++ f.Text
    if endsSentence (trimS f.Text) then
      { Text := acc', StartTime := st', Embedding := none, TokenCount := tok acc' }
        :: assembleGo tok rest "" st' true
    else
      assembleGo tok rest acc' st' false

/-- `ExtractSentencesFromFrames` from `srt_parser.go`. -/
def ExtractSentencesFromFrames (tok : String → ℕ) (frames : List Frame) : List Sentence :=
  if frames.isEmpty then [] else assembleGo tok frames "" "" true

/-- Join strings with single spaces (Go `strings.Join(parts, " ")`). -/
def joinSp : List String → String
  | [] => ""
  | [t] => t
  | t :: ts => t ++ " " ++ joinSp ts

/-- Spec-side grouping of frames into sentences: a group is closed by a frame
whose trimmed text ends in sentence punctuation; a trailing unterminated group
is also a sentence. -/
def frameGroups : List Frame → List Frame → List (List Frame)
  | [], cur => if cur.isEmpty then [] else [cur]
  | f :: rest, cur =>
    if endsSentence (trimS f.Text) then (cur ++ [f]) :: frameGroups rest []
    else frameGroups rest (cur ++ [f])

/-- The sentence a group of frames denotes: texts joined by single spaces,
anchored at the first frame's start time, token count from the tokenizer. -/
def sentenceOfGroup (tok : String → ℕ) (g : List Frame) : Sentence :=
  { Text := joinSp (g.map Frame.Text)
    StartTime := (g.headD { Text := "", StartTime := "", EndTime := "" }).StartTime
    Embedding := none
    TokenCount := tok (joinSp (g.map Frame.Text)) }

/-- Spec-side sentence assembly: one sentence per frame group. -/
def sentencesSpec (tok : String → ℕ) (frames : List Frame) : List Sentence :=
  (frameGroups frames []).map (sentenceOfGroup tok)

/-! ## Cosine similarity error conditions (`chunking.go`, `CosineSimilarity`)

`CosineSimilarity`'s successful value is `dot/(√‖a‖·√‖b‖)` in `float32`; its
square root is not modelled exactly.  The chunker discards the error return and
uses only the value, so the chunker is parametrised over a similarity function
`cos`, and the error branches of `CosineSimilarity` — which return the value `0`
together with an error — are captured exactly by `cosineDefined` and the
`CosineModel` constraint below. -/

/-- Sum of squares of a vector (the `normA`/`normB` accumulators). -/
def norm2 (a : List ℚ) : ℚ := (a.map fun x => x * x).sum

/-- `CosineSimilarity` returns a real value (no error) exactly when the vectors
have equal non-zero length and both have non-zero norm; on every other input it
returns the value `0` together with an error. -/
def cosineDefined (a b : List ℚ) : Bool :=
  a.length == b.length && a.length != 0 && norm2 a != 0 && norm2 b != 0

/-- A similarity function faithfully models `CosineSimilarity`'s value when it
returns `0` on every input on which the Go function takes an error branch. -/
def CosineModel (cos : List ℚ → List ℚ → ℚ) : Prop :=
  ∀ a b, cosineDefined a b = false → cos a b = 0

/-! ## Chunking (`chunking.go`) -/

/-- Errors of `ExtractChunksFromSentences`, each carrying the data interpolated
into the corresponding `fmt.Errorf` message. -/
inductive ChunkError where
  | sentenceTooLarge (idx tokenCount maxSize : ℕ)
  | nilEmbedding (idx : ℕ)
  | dpFailed
deriving DecidableEq, Repr

/-- `ComputePenalty` from `chunking.go`: hinge penalty of the token window
`[i, j)` given the prefix-token array; `false` marks an illegal (oversize)
segment.  In the division branch `OptimalSize < t ≤ MaxSize`, so the
denominator is positive. -/
def ComputePenalty (cfg : ChunkingConfig) (i j : ℕ) (prefixTokens : List ℕ) : ℚ × Bool :=
  let tokenCount := prefixTokens.getD j 0 - prefixTokens.getD i 0
  if tokenCount > cfg.MaxSize then (0, false)
  else if tokenCount ≤ cfg.OptimalSize then (0, true)
  else (cfg.LambdaSize * ((tokenCount - cfg.OptimalSize : ℕ) : ℚ) / ((cfg.MaxSize - cfg.OptimalSize : ℕ) : ℚ), true)

/-- `SegmentReward` from `chunking.go`: sum of adjacent similarities strictly
inside `[i, j)`, via the prefix-similarity array. -/
def SegmentReward (i j : ℕ) (prefixSim : List ℚ) : ℚ :=
  if j - i ≤ 1 then 0 else prefixSim.getD (j - 1) 0 - prefixSim.getD i 0

/-- The chunker's sanity loop: index (and token count) of the first sentence
whose token count exceeds `MaxSize`. -/
def firstOversize (cfg : ChunkingConfig) : List Sentence → ℕ → Option (ℕ × ℕ)
  | [], _ => none
  | s :: rest, idx =>
    if s.TokenCount > cfg.MaxSize then some (idx, s.TokenCount)
    else firstOversize cfg rest (idx + 1)

/-- The adjacent-similarity loop of `ExtractChunksFromSentences`: for each
adjacent pair, fail if either embedding is `nil`, otherwise record the
similarity value (the error return of `CosineSimilarity` is discarded). -/
def simLoop (cos : List ℚ → List ℚ → ℚ) : List Sentence → ℕ → Except ChunkError (List ℚ)
  | s₁ :: s₂ :: rest, i =>
    match s₁.Embedding with
    | none => .error (.nilEmbedding i)
    | some a =>
      match s₂.Embedding with
      | none => .error (.nilEmbedding (i + 1))
      | some b =>
        match simLoop cos (s₂ :: rest) (i + 1) with
        | .error e => .error e
        | .ok tail => .ok (cos a b :: tail)
  | _, _ => .ok []

/-- Min-max normalization of the similarity array to `[0, 1]`; a zero range
sets every entry to `0.5` (the `minSim`/`maxSim` block of `chunking.go`). -/
def normalizeSims (sim : List ℚ) : List ℚ :=
  match sim with
  | [] => []
  | s0 :: _ =>
    let minSim := sim.foldl min s0
    let maxSim := sim.foldl max s0
    if maxSim - minSim = 0 then sim.map fun _ => (1 / 2 : ℚ)
    else sim.map fun v => (v - minSim) / (maxSim - minSim)

/-- The prefix-similarity array of `chunking.go`: partial sums of the
normalized similarities, with the last entry duplicated so the array has
length `n + 1`. -/
def buildPrefixSim (sim : List ℚ) : List ℚ :=
  let base := sim.scanl (· + ·) 0
  base ++ [base.getLastD 0]

/-- The prefix-token array: partial sums of the sentences' token counts. -/
def buildPrefixTokens (sentences : List Sentence) : List ℕ :=
  (sentences.map Sentence.TokenCount).scanl (· + ·) 0

/-- One step of the inner DP loop: candidate predecessor `i` for position `j`.
A table cell is `(dp, start)` where `dp = none` models `-∞` and
`start = none` models `-1`. -/
def dpStep (cfg : ChunkingConfig) (prefixSim : List ℚ) (prefixTokens : List ℕ)
    (tbl : List (Option ℚ × Option ℕ)) (j : ℕ)
    (best : Option ℚ × Option ℕ) (i : ℕ) : Option ℚ × Option ℕ :=
  match (tbl.getD i (none, none)).1 with
  | none => best
  | some dpi =>
    let pl := ComputePenalty cfg i j prefixTokens
    if pl.2 then
      let score := dpi + SegmentReward i j prefixSim - pl.1 - cfg.ChunkPenalty
      match best.1 with
      | none => (some score, some i)
      | some b => if score > b then (some score, some i) else best
    else best

/-- The inner DP loop for position `j ≥ 1`: scan predecessors `i ∈ [0, j)` in
ascending order, keeping the strictly best score (first `i` wins ties). -/
def dpCell (cfg : ChunkingConfig) (prefixSim : List ℚ) (prefixTokens : List ℕ)
    (tbl : List (Option ℚ × Option ℕ)) (j : ℕ) : Option ℚ × Option ℕ :=
  (List.range j).foldl (dpStep cfg prefixSim prefixTokens tbl j) (none, none)

/-- The DP table `dp[0..j]`, `start[0..j]` of `chunking.go`, built in order:
`dp[0] = 0`, `start[0] = 0`, and each later cell from `dpCell`. -/
def dpTable (cfg : ChunkingConfig) (prefixSim : List ℚ) (prefixTokens : List ℕ) : ℕ → List (Option ℚ × Option ℕ)
  | 0 => [(some 0, some 0)]
  | j + 1 =>
    let tbl := dpTable cfg prefixSim prefixTokens j
    tbl ++ [dpCell cfg prefixSim prefixTokens tbl (j + 1)]

/-- The reconstruction loop: follow `start` pointers from `pos` down to `0`,
collecting segments `(start[pos], pos)` in reverse chronological order.  The
fuel argument bounds the loop (each step strictly decreases `pos`); a missing
pointer — a Go panic, unreachable when `dp[n]` is finite — yields `[]`. -/
def backtrack (tbl : List (Option ℚ × Option ℕ)) : ℕ → ℕ → List (ℕ × ℕ)
  | 0, _ => []
  | _, 0 => []
  | fuel + 1, pos + 1 =>
    match (tbl.getD (pos + 1) (none, none)).2 with
    | none => []
    | some prev => (prev, pos + 1) :: backtrack tbl fuel prev

/-- The run of sentences of segment `[i, j)`. -/
def segRun (sentences : List Sentence) (seg : ℕ × ℕ) : List Sentence :=
  (sentences.drop seg.1).take (seg.2 - seg.1)

/-- Chunk construction of the reconstruction loop, with the final re-indexed
`ChunkIndex` (the code re-indexes chunks chronologically after reversing). -/
def mkChunk (sentences : List Sentence) (seg : ℕ × ℕ) (idx : ℕ) : Chunk :=
  let run := segRun sentences seg
  { Text := joinSp (run.map Sentence.Text)
    StartTime := (run.headD { Text := "", StartTime := "", Embedding := none, TokenCount := 0 }).StartTime
    Embedding := none
    NumSentences := run.length
    TokenCount := (run.map Sentence.TokenCount).sum
    ChunkIndex := idx
    SentenceEmbeddings := run.map Sentence.Embedding }

/-- The chronological segment list reconstructed from the DP table. -/
def dpSegments (cfg : ChunkingConfig) (prefixSim : List ℚ) (prefixTokens : List ℕ) (n : ℕ) : List (ℕ × ℕ) :=
  (backtrack (dpTable cfg prefixSim prefixTokens n) n n).reverse

/-- `ExtractChunksFromSentences` from `chunking.go`, parametrised over the
similarity value function `cos` (see `CosineModel`).  Empty input yields no
chunks; a single sentence becomes a single chunk without validation; otherwise
the sanity checks, similarity precomputation, normalization, DP, and
reconstruction run in source order. -/
def ExtractChunksFromSentences (cos : List ℚ → List ℚ → ℚ) (cfg : ChunkingConfig)
    (sentences : List Sentence) : Except ChunkError (List Chunk) :=
  match sentences with
  | [] => .ok []
  | [s] =>
    .ok [{ Text := s.Text, StartTime := s.StartTime, Embedding := s.Embedding,
           NumSentences := 1, TokenCount := s.TokenCount, ChunkIndex := 0,
           SentenceEmbeddings := [s.Embedding] }]
  | _ =>
    let n := sentences.length
    match firstOversize cfg sentences 0 with
    | some (idx, tc) => .error (.sentenceTooLarge idx tc cfg.MaxSize)
    | none =>
      match simLoop cos sentences 0 with
      | .error e => .error e
      | .ok rawSim =>
        let sim := normalizeSims rawSim
        let prefixSim := buildPrefixSim sim
        let prefixTokens := buildPrefixTokens sentences
        let tbl := dpTable cfg prefixSim prefixTokens n
        if ((tbl.getD n (none, none)).1.isNone || (tbl.getD n (none, none)).2.isNone : Bool) then
          .error .dpFailed
        else
          .ok ((dpSegments cfg prefixSim prefixTokens n).enum.map
                fun p => mkChunk sentences p.2 p.1)

/-! ## Partitions and scores (spec vocabulary for the DP claims) -/

/-- `Partition n segs`: `segs` is a list of contiguous segments
`(0,c₁), (c₁,c₂), …, (c_{k-1}, n)` partitioning `[0, n)` in chronological
order. -/
inductive Partition : ℕ → List (ℕ × ℕ) → Prop where
  | nil : Partition 0 []
  | cons (i j : ℕ) (segs : List (ℕ × ℕ)) :
      Partition i segs → i < j → Partition j (segs ++ [(i, j)])

/-- The score of segment `[i, j)`: reward minus size penalty minus the
per-chunk cost. -/
def segScore (cfg : ChunkingConfig) (prefixSim : List ℚ) (prefixTokens : List ℕ) (i j : ℕ) : ℚ :=
  SegmentReward i j prefixSim - (ComputePenalty cfg i j prefixTokens).1 - cfg.ChunkPenalty

/-- A segment is legal when its token window does not exceed `MaxSize`. -/
def segLegal (cfg : ChunkingConfig) (prefixTokens : List ℕ) (seg : ℕ × ℕ) : Prop :=
  (ComputePenalty cfg seg.1 seg.2 prefixTokens).2 = true

/-- Total score of a partition: sum of its segments' scores. -/
def partScore (cfg : ChunkingConfig) (prefixSim : List ℚ) (prefixTokens : List ℕ)
    (segs : List (ℕ × ℕ)) : ℚ :=
  (segs.map fun p => segScore cfg prefixSim prefixTokens p.1 p.2).sum

/-- All segments of a partition are legal. -/
def partLegal (cfg : ChunkingConfig) (prefixTokens : List ℕ) (segs : List (ℕ × ℕ)) : Prop :=
  ∀ p ∈ segs, segLegal cfg prefixTokens p

/-! ## Batched embedding (`embeddings.go`, `embedBatches`)

The inner/outer loops of `embedBatches` are modelled on the list of
(text, token length) pairs; the per-batch inference call `embedBatch` is an
external parameter `embed`. -/

/-- The fused batching loops of `embedBatches`: grow the current batch `cur`
(with running maximum token length `curMax`) while the budget test
`(len+1) × newMax ≤ MaxBatchTokens` passes or the batch is empty; on a
violation seal `cur` and start a new batch with the candidate (the candidate
is then consumed unconditionally, exactly as the first inner-loop iteration
after a `break` in the Go code). -/
def batchSplitGo (budget : ℕ) : List (String × ℕ) → List (String × ℕ) → ℕ →
    List (List (String × ℕ))
  | [], cur, _ => if cur.isEmpty then [] else [cur]
  | x :: rest, cur, curMax =>
    let newMax := max curMax x.2
    if cur.length > 0 && (cur.length + 1) * newMax > budget then
      cur :: batchSplitGo budget rest [x] x.2
    else batchSplitGo budget rest (cur ++ [x]) newMax

/-- The consecutive batches formed by `embedBatches` over the (text, token
length) pairs in arrival order. -/
def batchSplit (budget : ℕ) (l : List (String × ℕ)) : List (List (String × ℕ)) :=
  batchSplitGo budget l [] 0

/-- `embedBatches` from `embeddings.go`, parametrised over the per-batch
inference `embed` (one output vector per batch row): length-mismatch inputs
fail, the empty input yields no embeddings, and otherwise the batches'
results are concatenated in order. -/
def embedBatches (embed : List String → List (List ℚ)) (budget : ℕ)
    (texts : List String) (tokenLengths : List ℕ) : Except String (List (List ℚ)) :=
  if texts.isEmpty then .ok []
  else if tokenLengths.length ≠ texts.length then
    .error "tokenCount length does not match text length"
  else
    .ok (((batchSplit budget (texts.zip tokenLengths)).map
          fun b => embed (b.map Prod.fst)).flatten)

/-- The maximum token length of a batch prefix. -/
def maxLen (b : List (String × ℕ)) : ℕ := (b.map Prod.snd).foldl max 0

/-- A frame of the `S2` scenario shape used for concrete evaluations. -/
def sampleFrame (t st : String) : Frame := { Text := t, StartTime := st, EndTime := "" }

/-- A 520-character single-frame text terminated by a period: under a
tokenizer that counts one token per character it assembles into a sentence of
520 tokens, above the default `MaxSize` of 512. -/
def longText : String := String.mk (List.replicate 519 'a' ++ ['.'])

/-- A trivially degenerate similarity function: models `CosineSimilarity`'s
value on inputs where every pair takes an error branch (`CosineModel` holds
for it). -/
def zeroCos : List ℚ → List ℚ → ℚ := fun _ _ => 0

/-- The default sentence used for out-of-range list reads in statements. -/
def blankSentence : Sentence :=
  { Text := "", StartTime := "", Embedding := none, TokenCount := 0 }

/-- A single sentence whose token count (600) exceeds the default `MaxSize`
(512), for the single-sentence counterexamples. -/
def oversizeSentence : Sentence :=
  { Text := "x", StartTime := "00:00:00,000", Embedding := none, TokenCount := 600 }

/-- A sentence with an explicit embedding, for concrete witnesses. -/
def wSentence (t : String) (tc : ℕ) (e : List ℚ) : Sentence :=
  { Text := t, StartTime := "", Embedding := some e, TokenCount := tc }

/-- The `dp` value at position `j` (reading the diagonal of the growing table;
`none` models `-∞`). -/
def dpv (cfg : ChunkingConfig) (ps : List ℚ) (pt : List ℕ) (j : ℕ) : Option ℚ :=
  ((dpTable cfg ps pt j).getD j (none, none)).1

/-- The `start` pointer at position `j` (`none` models `-1`). -/
def startv (cfg : ChunkingConfig) (ps : List ℚ) (pt : List ℕ) (j : ℕ) : Option ℕ :=
  ((dpTable cfg ps pt j).getD j (none, none)).2

/-- A trivial per-batch inference model returning one empty vector per row,
for concrete witnesses. -/
def constEmbed : List String → List (List ℚ) := fun ts => ts.map fun _ => []

/-- Two small sentences with embeddings, for concrete witnesses. -/
def twoSentences : List Sentence := [wSentence "a" 10 [1], wSentence "b" 10 [1]]

/-- One small sentence with an embedding, for concrete witnesses. -/
def oneSentence : List Sentence := [wSentence "a" 10 [1]]

/-- The chunk the single-sentence fast path returns for `oneSentence`. -/
def oneChunk : Chunk :=
  { Text := "a"
    StartTime := ""
    Embedding := some [1]
    NumSentences := 1
    TokenCount := 10
    ChunkIndex := 0
    SentenceEmbeddings := [some [1]] }

/-- Soundness of a DP cell for position `j` over the table `tbl`: a finite
value names a legal predecessor `i < j` and equals `dp[i]` plus the segment
score of `[i, j)`. -/
def cellSound (cfg : ChunkingConfig) (ps : List ℚ) (pt : List ℕ)
    (tbl : List (Option ℚ × Option ℕ)) (j : ℕ) (c : Option ℚ × Option ℕ) : Prop :=
  (c.1 = none → c.2 = none) ∧
  (∀ d : ℚ, c.1 = some d → ∃ i di, c.2 = some i ∧ i < j ∧
    (ComputePenalty cfg i j pt).2 = true ∧ (tbl.getD i (none, none)).1 = some di ∧
    d = di + segScore cfg ps pt i j)

/-- Sentence `idx` violates the chunker's preconditions: oversize token count
or missing embedding. -/
def offendingAt (cfg : ChunkingConfig) (sentences : List Sentence) (idx : ℕ) : Prop :=
  idx < sentences.length ∧
    ((sentences.getD idx blankSentence).TokenCount > cfg.MaxSize ∨
      (sentences.getD idx blankSentence).Embedding = none)

/-- Every prefix of the batch of length `r ≥ 2` satisfied the budget test when
its last element was added: `r × max(token lengths of the prefix) ≤ budget`. -/
def batchPrefixOK (budget : ℕ) (b : List (String × ℕ)) : Prop :=
  ∀ r, 2 ≤ r → r ≤ b.length → r * maxLen (b.take r) ≤ budget

/-- A batch was sealed because adding the next batch's first element would
have violated the budget. -/
def batchSealed (budget : ℕ) (b c : List (String × ℕ)) : Prop :=
  ∀ y ∈ c.head?, (b.length + 1) * max (maxLen b) y.2 > budget

/-! # Theorems -/

/-! ## C9 — configuration defaults -/

/-- **C9, counterexample.**  The claim states `λ_size = 3.0` and
`MaxBatchTokens = 12000`; the source sets `LambdaSize: 2.0` and
`MaxBatchTokens: 6000` (`config.go`), so the claim is false as stated. -/
theorem C9_counterexample :
    DefaultChunkingConfig.LambdaSize ≠ (3 : ℚ) ∧
    DefaultEmbeddingConfig.MaxBatchTokens ≠ 12000 := by
  constructor
  · decide
  · decide

/-- **C9, amended.**  The default configuration returned by
`DefaultChunkingConfig` and `DefaultEmbeddingConfig` is `OptimalSize = 470`,
`MaxSize = 512`, `λ_size = 2.0`, `λ_chunk = 1.0` and `MaxBatchTokens = 6000`. -/
theorem C9_defaults :
    DefaultChunkingConfig.OptimalSize = 470 ∧
    DefaultChunkingConfig.MaxSize = 512 ∧
    DefaultChunkingConfig.LambdaSize = 2 ∧
    DefaultChunkingConfig.ChunkPenalty = 1 ∧
    DefaultEmbeddingConfig.MaxBatchTokens = 6000 := by
  refine ⟨rfl, rfl, ?_, ?_, rfl⟩
  · decide
  · decide

/-! ## C8 — SRT parsing round-trip -/

/-- `strings.Split` never returns an empty list. -/
theorem splitGo_length_pos (sep : List Char) :
    ∀ (l cur : List Char) (skip : ℕ), 0 < (splitGo sep l cur skip).length := by
  intro l
  induction l with
  | nil => intro cur skip; simp [splitGo]
  | cons c rest ih =>
    intro cur skip
    match skip with
    | skip + 1 => simpa [splitGo] using ih cur skip
    | 0 =>
      simp only [splitGo]
      split
      · simp
      · exact ih (cur ++ [c]) 0

/-- `splitOnS` never returns an empty list. -/
theorem splitOnS_length_pos (s sep : String) : 0 < (splitOnS s sep).length := by
  simpa [splitOnS] using splitGo_length_pos sep.data s.data [] 0

/-- The line loop keeps exactly the subtitle text lines, whatever the current
time-range state is. -/
theorem parseLines_texts (lines : List String) :
    ∀ st en, (parseLines lines st en).map Frame.Text = (lines.map trimS).filter keepLine := by
  induction lines with
  | nil => intro st en; simp [parseLines]
  | cons line rest ih =>
    intro st en
    simp only [parseLines, List.map_cons, List.filter_cons]
    by_cases h1 : trimS line = ""
    · simp [h1, keepLine, ih]
    · by_cases h2 : isDigitOnly (trimS line) = true
      · simp [h1, h2, keepLine, ih]
      · by_cases h3 : (splitOnS (trimS line) "-->").length ≥ 2
        · have h3' : ((splitOnS (trimS line) "-->").length == 1) = false := by
            rw [beq_eq_false_iff_ne]
            omega
          by_cases h4 : (splitOnS (trimS line) "-->").length = 2
          · simp [h1, h2, h3, h3', h4, keepLine, ih]
          · simp [h1, h2, h3, h3', h4, keepLine, ih]
        · have h3' : (splitOnS (trimS line) "-->").length = 1 := by
            have hpos := splitOnS_length_pos (trimS line) "-->"
            omega
          simp [h1, h2, h3, h3', keepLine, ih]

/-- **C8 (confirmed).**  Re-joining in order the `Text` fields of the frames
returned by `ParseSRT` reproduces exactly the input's subtitle text lines —
the trimmed lines that are neither blank, nor sequence numbers, nor time
ranges — so no subtitle text line is lost by parsing. -/
theorem C8_parse_roundtrip (s : String) :
    (ParseSRT s).map Frame.Text = subtitleLines s := by
  unfold ParseSRT subtitleLines
  by_cases h : s = ""
  · subst h
    simp only [if_pos rfl]
    decide
  · simp only [if_neg h]
    exact parseLines_texts _ "" ""

/-! ## C5 — sentence assembly -/

/-- A string is empty exactly when its character list is. -/
theorem string_eq_empty_iff (a : String) : a = "" ↔ a.data = [] := by
  constructor
  · intro h
    subst h
    rfl
  · intro h
    cases a with
    | mk d =>
      have hd : d = [] := h
      subst hd
      rfl

/-- Appending to a non-empty string keeps it non-empty. -/
theorem append_ne_empty_left (a b : String) (h : a ≠ "") : a ++ b ≠ "" := by
  intro e
  apply h
  rw [string_eq_empty_iff] at e ⊢
  have : (a ++ b).data = a.data ++ b.data := rfl
  rw [this] at e
  exact (List.append_eq_nil.mp e).1

/-- `joinSp` of a non-empty list of non-empty strings is non-empty. -/
theorem joinSp_ne_empty : ∀ (ts : List String), (∀ t ∈ ts, t ≠ "") → ts ≠ [] → joinSp ts ≠ "" := by
  intro ts
  match ts with
  | [] => intro _ h; exact absurd rfl h
  | [t] =>
    intro h _
    simpa [joinSp] using h t (by simp)
  | t :: t' :: rest =>
    intro h _
    show t ++ " " ++ joinSp (t' :: rest) ≠ ""
    exact append_ne_empty_left _ _ (append_ne_empty_left _ _ (h t (by simp)))

/-- Appending a final string to a non-empty `joinSp` inserts a single space. -/
theorem joinSp_append_singleton :
    ∀ (ts : List String) (t : String), ts ≠ [] → joinSp (ts ++ [t]) = joinSp ts ++ " " ++ t := by
  intro ts
  induction ts with
  | nil => intro t h; exact absurd rfl h
  | cons a rest ih =>
    intro t _
    cases rest with
    | nil => rfl
    | cons b rest' =>
      show a ++ " " ++ joinSp ((b :: rest') ++ [t]) = (a ++ " " ++ joinSp (b :: rest')) ++ " " ++ t
      rw [ih t (by simp)]
      simp [String.append_assoc]

/-- The assembly loop refines the group-wise specification: with the builder
holding exactly the texts of the current partial group `cur`, the loop emits
one sentence per frame group. -/
theorem assembleGo_groups (tok : String → ℕ) :
    ∀ (rest cur : List Frame) (st : String),
      (∀ f ∈ rest, f.Text ≠ "") → (∀ f ∈ cur, f.Text ≠ "") →
      (cur ≠ [] → st = (cur.headD { Text := "", StartTime := "", EndTime := "" }).StartTime) →
      assembleGo tok rest (joinSp (cur.map Frame.Text)) st cur.isEmpty
        = (frameGroups rest cur).map (sentenceOfGroup tok) := by
  intro rest
  induction rest with
  | nil =>
    intro cur st _ hcur hst
    by_cases hc : cur = []
    · subst hc
      simp [assembleGo, frameGroups, joinSp]
    · have hne : joinSp (cur.map Frame.Text) ≠ "" := by
        refine joinSp_ne_empty _ ?_ (by simpa using hc)
        intro t ht
        obtain ⟨f, hf, rfl⟩ := List.mem_map.mp ht
        exact hcur f hf
      have hce : cur.isEmpty = false := by
        simp [List.isEmpty_iff, hc]
      rw [hce]
      simp only [assembleGo, frameGroups, hce, if_neg hne, Bool.false_eq_true, if_false]
      simp [sentenceOfGroup, hst hc]
  | cons f fs ih =>
    intro cur st hrest hcur hst
    have hf : f.Text ≠ "" := hrest f (by simp)
    have hrest' : ∀ g ∈ fs, g.Text ≠ "" := fun g hg => hrest g (by simp [hg])
    have hacc : (if joinSp (cur.map Frame.Text) = "" then f.Text
        else joinSp (cur.map Frame.Text) ++ " " ++ f.Text)
        = joinSp ((cur ++ [f]).map Frame.Text) := by
      by_cases hc : cur = []
      · subst hc
        simp [joinSp]
      · have hne : joinSp (cur.map Frame.Text) ≠ "" := by
          refine joinSp_ne_empty _ ?_ (by simpa using hc)
          intro t ht
          obtain ⟨g, hg, rfl⟩ := List.mem_map.mp ht
          exact hcur g hg
        rw [if_neg hne, List.map_append]
        exact (joinSp_append_singleton _ _ (by simpa using hc)).symm
    have hstart : (if cur.isEmpty then f.StartTime else st)
        = ((cur ++ [f]).headD { Text := "", StartTime := "", EndTime := "" }).StartTime := by
      by_cases hc : cur = []
      · subst hc
        simp
      · have hce : cur.isEmpty = false := by simp [List.isEmpty_iff, hc]
        rw [hce]
        simp only [Bool.false_eq_true, if_false]
        rw [hst hc]
        cases cur with
        | nil => exact absurd rfl hc
        | cons c cs => rfl
    by_cases hb : endsSentence (trimS f.Text) = true
    · simp only [assembleGo, frameGroups, hb, if_true, List.map_cons]
      congr 1
      · unfold sentenceOfGroup
        rw [← hacc, ← hstart]
      · have := ih [] (if cur.isEmpty then f.StartTime else st) hrest' (by simp) (by simp)
        simpa [joinSp] using this
    · have hb' : endsSentence (trimS f.Text) = false := by
        simp [Bool.eq_false_iff, hb]
      simp only [assembleGo, frameGroups, hb', Bool.false_eq_true, if_false]
      rw [hacc, hstart]
      have hne' : (cur ++ [f]) ≠ [] := by simp
      have hce' : (cur ++ [f]).isEmpty = false := by simp [List.isEmpty_iff]
      have := ih (cur ++ [f]) _ hrest'
        (by
          intro g hg
          rcases List.mem_append.mp hg with h | h
          · exact hcur g h
          · simp at h
            subst h
            exact hf)
        (fun _ => rfl)
      rw [hce'] at this
      exact this

/-- **C5 (confirmed).**  For frame sequences with non-empty texts (as produced
by `ParseSRT`, which trims lines and drops blank ones), sentence assembly
emits a sentence exactly at each frame whose trimmed text ends with `.`, `!`
or `?`, plus one final sentence for remaining text; each sentence's text is
its contributing frames' texts joined by single spaces, its start time is the
first contributing frame's start time, and its token count is the tokenizer's
count of its text. -/
theorem C5_assembly (tok : String → ℕ) (frames : List Frame)
    (h : ∀ f ∈ frames, f.Text ≠ "") :
    ExtractSentencesFromFrames tok frames = sentencesSpec tok frames := by
  unfold ExtractSentencesFromFrames sentencesSpec
  cases frames with
  | nil => simp [frameGroups]
  | cons f fs =>
    have := assembleGo_groups tok (f :: fs) [] "" h (by simp) (by simp)
    simpa [joinSp] using this

/-- **C5 witness.**  A concrete two-frame sentence spanning a boundary plus a
trailing unterminated frame, under a character-counting tokenizer. -/
theorem C5_assembly_witness :
    (∀ f ∈ [sampleFrame "I am happy to" "00:00:00,000",
            sampleFrame "have you here." "00:00:01,910",
            sampleFrame "So today" "00:00:03,700"], f.Text ≠ "") ∧
    ExtractSentencesFromFrames String.length
        [sampleFrame "I am happy to" "00:00:00,000",
         sampleFrame "have you here." "00:00:01,910",
         sampleFrame "So today" "00:00:03,700"]
      = sentencesSpec String.length
        [sampleFrame "I am happy to" "00:00:00,000",
         sampleFrame "have you here." "00:00:01,910",
         sampleFrame "So today" "00:00:03,700"] :=
  ⟨by decide, C5_assembly _ _ (by decide)⟩

/-! ## Prefix-sum and penalty lemmas -/

/-- Reading the running-sum array: entry `i` is the seed plus the sum of the
first `i` elements. -/
theorem scanl_add_getD (l : List ℕ) :
    ∀ (a i : ℕ), i ≤ l.length → (l.scanl (· + ·) a).getD i 0 = a + (l.take i).sum := by
  induction l with
  | nil =>
    intro a i h
    have hi : i = 0 := by simpa using h
    subst hi
    simp [List.scanl]
  | cons x xs ih =>
    intro a i h
    cases i with
    | zero => simp [List.scanl]
    | succ k =>
      have hk : k ≤ xs.length := by simpa using h
      simp only [List.scanl, List.getD_cons_succ, List.take_succ_cons, List.sum_cons]
      rw [ih (a + x) k hk]
      omega

/-- Entry `i` of the prefix-token array is the total token count of the first
`i` sentences. -/
theorem buildPrefixTokens_getD (sentences : List Sentence) (i : ℕ) (h : i ≤ sentences.length) :
    (buildPrefixTokens sentences).getD i 0 = ((sentences.take i).map Sentence.TokenCount).sum := by
  unfold buildPrefixTokens
  rw [scanl_add_getD _ 0 i (by simpa using h)]
  rw [List.map_take]
  omega

/-- The token window of a segment is the total token count of its sentence run. -/
theorem segTokens_eq_run (sentences : List Sentence) (i j : ℕ) (hij : i ≤ j)
    (hj : j ≤ sentences.length) :
    (buildPrefixTokens sentences).getD j 0 - (buildPrefixTokens sentences).getD i 0
      = ((segRun sentences (i, j)).map Sentence.TokenCount).sum := by
  rw [buildPrefixTokens_getD _ j hj, buildPrefixTokens_getD _ i (le_trans hij hj)]
  unfold segRun
  have hsplit := List.take_add sentences i (j - i)
  rw [show i + (j - i) = j by omega] at hsplit
  rw [hsplit]
  simp

/-- A segment is legal exactly when its token window is at most `MaxSize`. -/
theorem legal_iff_tokens_le (cfg : ChunkingConfig) (pt : List ℕ) (i j : ℕ) :
    (ComputePenalty cfg i j pt).2 = true ↔ pt.getD j 0 - pt.getD i 0 ≤ cfg.MaxSize := by
  simp only [ComputePenalty]
  set t := pt.getD j 0 - pt.getD i 0 with ht
  split_ifs with h1 h2 <;> simp <;> omega

/-- The token window of the single-sentence segment `[k, k+1)`. -/
theorem singleSeg_tokens (sentences : List Sentence) (k : ℕ) (hk : k < sentences.length) :
    (buildPrefixTokens sentences).getD (k + 1) 0 - (buildPrefixTokens sentences).getD k 0
      = (sentences.getD k blankSentence).TokenCount := by
  rw [segTokens_eq_run sentences k (k + 1) (by omega) (by omega)]
  unfold segRun
  simp only [Nat.add_sub_cancel_left]
  have h1 : (sentences.drop k).take 1 = [sentences[k]] := by
    rw [List.drop_eq_getElem_cons hk]
    rfl
  rw [h1]
  simp [List.getD, List.getElem?_eq_getElem hk]

/-! ## DP table lemmas -/

/-- The DP table for positions `0..n` has `n + 1` cells. -/
theorem dpTable_length (cfg : ChunkingConfig) (ps : List ℚ) (pt : List ℕ) :
    ∀ n, (dpTable cfg ps pt n).length = n + 1 := by
  intro n
  induction n with
  | zero => rfl
  | succ k ih => simp [dpTable, ih]

/-- Cells already computed do not change as the table grows. -/
theorem dpTable_getD_stable (cfg : ChunkingConfig) (ps : List ℚ) (pt : List ℕ) :
    ∀ m j, j ≤ m →
      (dpTable cfg ps pt m).getD j (none, none) = (dpTable cfg ps pt j).getD j (none, none) := by
  intro m
  induction m with
  | zero =>
    intro j h
    have : j = 0 := by omega
    subst this
    rfl
  | succ k ih =>
    intro j h
    rcases Nat.lt_or_ge j (k + 1) with hlt | hge
    · have hj : j ≤ k := by omega
      show ((dpTable cfg ps pt k) ++ [dpCell cfg ps pt (dpTable cfg ps pt k) (k + 1)]).getD j (none, none) = _
      rw [List.getD_append _ _ _ _ (by rw [dpTable_length]; omega)]
      exact ih j hj
    · have : j = k + 1 := by omega
      subst this
      rfl

/-- The freshly appended cell of the table. -/
theorem dpTable_getD_succ (cfg : ChunkingConfig) (ps : List ℚ) (pt : List ℕ) (j : ℕ) :
    (dpTable cfg ps pt (j + 1)).getD (j + 1) (none, none)
      = dpCell cfg ps pt (dpTable cfg ps pt j) (j + 1) := by
  show ((dpTable cfg ps pt j) ++ [dpCell cfg ps pt (dpTable cfg ps pt j) (j + 1)]).getD (j + 1) (none, none) = _
  rw [List.getD_append_right _ _ _ _ (by rw [dpTable_length])]
  rw [dpTable_length]
  simp

/-- One DP step preserves cell soundness. -/
theorem dpStep_sound (cfg : ChunkingConfig) (ps : List ℚ) (pt : List ℕ)
    (tbl : List (Option ℚ × Option ℕ)) (j i : ℕ) (c : Option ℚ × Option ℕ)
    (hi : i < j) (hc : cellSound cfg ps pt tbl j c) :
    cellSound cfg ps pt tbl j (dpStep cfg ps pt tbl j c i) := by
  unfold dpStep
  cases hv : (tbl.getD i (none, none)).1 with
  | none => exact hc
  | some dpi =>
    by_cases hl : (ComputePenalty cfg i j pt).2 = true
    · simp only [hl, if_true]
      cases hb : c.1 with
      | none =>
        refine ⟨by simp, ?_⟩
        intro d hd
        simp only at hd
        refine ⟨i, dpi, by simp, hi, hl, hv, ?_⟩
        have : d = dpi + SegmentReward i j ps - (ComputePenalty cfg i j pt).1 - cfg.ChunkPenalty := by
          exact (Option.some_injective _ hd).symm
        rw [this]
        unfold segScore
        ring
      | some b =>
        by_cases hgt : dpi + SegmentReward i j ps - (ComputePenalty cfg i j pt).1 - cfg.ChunkPenalty > b
        · simp only [hgt, if_true]
          refine ⟨by simp, ?_⟩
          intro d hd
          simp only at hd
          refine ⟨i, dpi, by simp, hi, hl, hv, ?_⟩
          have : d = dpi + SegmentReward i j ps - (ComputePenalty cfg i j pt).1 - cfg.ChunkPenalty :=
            (Option.some_injective _ hd).symm
          rw [this]
          unfold segScore
          ring
        · simp only [hgt, if_false]
          exact hc
    · simp only [hl, if_false]
      exact hc

/-- One DP step never decreases the best value. -/
theorem dpStep_ge (cfg : ChunkingConfig) (ps : List ℚ) (pt : List ℕ)
    (tbl : List (Option ℚ × Option ℕ)) (j i : ℕ) (c : Option ℚ × Option ℕ) :
    ∀ d : ℚ, c.1 = some d → ∃ dd, (dpStep cfg ps pt tbl j c i).1 = some dd ∧ d ≤ dd := by
  intro d hd
  obtain ⟨c1, c2⟩ := c
  have hd' : c1 = some d := hd
  subst hd'
  unfold dpStep
  cases hv : (tbl.getD i (none, none)).1 with
  | none => exact ⟨d, rfl, le_refl d⟩
  | some dpi =>
    by_cases hl : (ComputePenalty cfg i j pt).2 = true
    · simp only [hl, if_true]
      by_cases hgt : dpi + SegmentReward i j ps - (ComputePenalty cfg i j pt).1 - cfg.ChunkPenalty > d
      · simp only [hgt, if_true]
        exact ⟨_, rfl, le_of_lt hgt⟩
      · simp only [hgt, if_false]
        exact ⟨d, rfl, le_refl d⟩
    · simp only [hl, if_false]
      exact ⟨d, rfl, le_refl d⟩

/-- After a DP step at a legal reachable predecessor, the best value dominates
that candidate. -/
theorem dpStep_cand (cfg : ChunkingConfig) (ps : List ℚ) (pt : List ℕ)
    (tbl : List (Option ℚ × Option ℕ)) (j i : ℕ) (c : Option ℚ × Option ℕ)
    (di : ℚ) (hv : (tbl.getD i (none, none)).1 = some di)
    (hl : (ComputePenalty cfg i j pt).2 = true) :
    ∃ dd, (dpStep cfg ps pt tbl j c i).1 = some dd ∧ di + segScore cfg ps pt i j ≤ dd := by
  have hscore : di + segScore cfg ps pt i j
      = di + SegmentReward i j ps - (ComputePenalty cfg i j pt).1 - cfg.ChunkPenalty := by
    unfold segScore
    ring
  obtain ⟨c1, c2⟩ := c
  unfold dpStep
  rw [hv]
  simp only [hl, if_true]
  cases c1 with
  | none =>
    refine ⟨_, rfl, ?_⟩
    rw [hscore]
  | some b =>
    by_cases hgt : di + SegmentReward i j ps - (ComputePenalty cfg i j pt).1 - cfg.ChunkPenalty > b
    · simp only [hgt, if_true]
      exact ⟨_, rfl, le_of_eq hscore⟩
    · simp only [hgt, if_false]
      refine ⟨b, rfl, ?_⟩
      rw [hscore]
      exact not_lt.mp hgt

/-- Folding DP steps over any set of predecessors below `j` preserves
soundness. -/
theorem dpFold_sound (cfg : ChunkingConfig) (ps : List ℚ) (pt : List ℕ)
    (tbl : List (Option ℚ × Option ℕ)) (j : ℕ) :
    ∀ (l : List ℕ) (c : Option ℚ × Option ℕ), (∀ i ∈ l, i < j) →
      cellSound cfg ps pt tbl j c →
      cellSound cfg ps pt tbl j (l.foldl (dpStep cfg ps pt tbl j) c) := by
  intro l
  induction l with
  | nil => intro c _ hc; exact hc
  | cons i rest ih =>
    intro c hl hc
    exact ih _ (fun x hx => hl x (by simp [hx]))
      (dpStep_sound cfg ps pt tbl j i c (hl i (by simp)) hc)

/-- Folding DP steps never decreases the best value. -/
theorem dpFold_ge (cfg : ChunkingConfig) (ps : List ℚ) (pt : List ℕ)
    (tbl : List (Option ℚ × Option ℕ)) (j : ℕ) :
    ∀ (l : List ℕ) (c : Option ℚ × Option ℕ) (d : ℚ), c.1 = some d →
      ∃ dd, ((l.foldl (dpStep cfg ps pt tbl j) c).1 = some dd ∧ d ≤ dd) := by
  intro l
  induction l with
  | nil => intro c d hd; exact ⟨d, hd, le_refl d⟩
  | cons i rest ih =>
    intro c d hd
    obtain ⟨d1, hd1, hle1⟩ := dpStep_ge cfg ps pt tbl j i c d hd
    obtain ⟨d2, hd2, hle2⟩ := ih _ d1 hd1
    exact ⟨d2, hd2, le_trans hle1 hle2⟩

/-- After folding over a predecessor list containing a legal reachable `i`,
the best value dominates the candidate through `i`. -/
theorem dpFold_max (cfg : ChunkingConfig) (ps : List ℚ) (pt : List ℕ)
    (tbl : List (Option ℚ × Option ℕ)) (j : ℕ) :
    ∀ (l : List ℕ) (c : Option ℚ × Option ℕ) (i : ℕ) (di : ℚ), i ∈ l →
      (tbl.getD i (none, none)).1 = some di →
      (ComputePenalty cfg i j pt).2 = true →
      ∃ dd, ((l.foldl (dpStep cfg ps pt tbl j) c).1 = some dd ∧
        di + segScore cfg ps pt i j ≤ dd) := by
  intro l
  induction l with
  | nil => intro c i di h; exact absurd h (List.not_mem_nil i)
  | cons i0 rest ih =>
    intro c i di hmem hv hl
    rcases List.mem_cons.mp hmem with heq | hmem'
    · subst heq
      obtain ⟨d1, hd1, hle1⟩ := dpStep_cand cfg ps pt tbl j i c di hv hl
      obtain ⟨d2, hd2, hle2⟩ := dpFold_ge cfg ps pt tbl j rest _ d1 hd1
      exact ⟨d2, hd2, le_trans hle1 hle2⟩
    · exact ih _ i di hmem' hv hl

/-- The computed cell for position `j` is sound. -/
theorem dpCell_sound (cfg : ChunkingConfig) (ps : List ℚ) (pt : List ℕ)
    (tbl : List (Option ℚ × Option ℕ)) (j : ℕ) :
    cellSound cfg ps pt tbl j (dpCell cfg ps pt tbl j) := by
  unfold dpCell
  refine dpFold_sound cfg ps pt tbl j (List.range j) (none, none) ?_ ?_
  · intro i hi
    exact List.mem_range.mp hi
  · exact ⟨fun _ => rfl, fun d hd => by simp at hd⟩

/-- The computed cell for position `j` dominates every legal reachable
predecessor's candidate. -/
theorem dpCell_max (cfg : ChunkingConfig) (ps : List ℚ) (pt : List ℕ)
    (tbl : List (Option ℚ × Option ℕ)) (j i : ℕ) (di : ℚ)
    (hij : i < j) (hv : (tbl.getD i (none, none)).1 = some di)
    (hl : (ComputePenalty cfg i j pt).2 = true) :
    ∃ dd, ((dpCell cfg ps pt tbl j).1 = some dd ∧ di + segScore cfg ps pt i j ≤ dd) := by
  unfold dpCell
  exact dpFold_max cfg ps pt tbl j (List.range j) (none, none) i di
    (List.mem_range.mpr hij) hv hl

/-- `dp[0] = 0`. -/
theorem dpv_zero (cfg : ChunkingConfig) (ps : List ℚ) (pt : List ℕ) :
    dpv cfg ps pt 0 = some 0 := rfl

/-- `start[0] = 0`. -/
theorem startv_zero (cfg : ChunkingConfig) (ps : List ℚ) (pt : List ℕ) :
    startv cfg ps pt 0 = some 0 := rfl

/-- Soundness of `dp[j+1]`/`start[j+1]` in terms of earlier `dp` values. -/
theorem dpv_succ_sound (cfg : ChunkingConfig) (ps : List ℚ) (pt : List ℕ) (j : ℕ) :
    (dpv cfg ps pt (j + 1) = none → startv cfg ps pt (j + 1) = none) ∧
    (∀ d : ℚ, dpv cfg ps pt (j + 1) = some d → ∃ i di, startv cfg ps pt (j + 1) = some i ∧
      i < j + 1 ∧ (ComputePenalty cfg i (j + 1) pt).2 = true ∧ dpv cfg ps pt i = some di ∧
      d = di + segScore cfg ps pt i (j + 1)) := by
  have hcell := dpCell_sound cfg ps pt (dpTable cfg ps pt j) (j + 1)
  have hv : dpv cfg ps pt (j + 1) = (dpCell cfg ps pt (dpTable cfg ps pt j) (j + 1)).1 := by
    unfold dpv
    rw [dpTable_getD_succ]
  have hs : startv cfg ps pt (j + 1) = (dpCell cfg ps pt (dpTable cfg ps pt j) (j + 1)).2 := by
    unfold startv
    rw [dpTable_getD_succ]
  constructor
  · intro h
    rw [hs]
    exact hcell.1 (by rw [← hv]; exact h)
  · intro d hd
    obtain ⟨i, di, hstart, hij, hleg, hdi, hsum⟩ := hcell.2 d (by rw [← hv]; exact hd)
    refine ⟨i, di, ?_, hij, hleg, ?_, hsum⟩
    · rw [hs]; exact hstart
    · unfold dpv
      rw [← dpTable_getD_stable cfg ps pt j i (by omega)]
      exact hdi

/-- Maximality of `dp[j+1]`: it dominates every legal reachable candidate. -/
theorem dpv_succ_max (cfg : ChunkingConfig) (ps : List ℚ) (pt : List ℕ) (j i : ℕ) (di : ℚ)
    (hij : i < j + 1) (hdi : dpv cfg ps pt i = some di)
    (hl : (ComputePenalty cfg i (j + 1) pt).2 = true) :
    ∃ d, dpv cfg ps pt (j + 1) = some d ∧ di + segScore cfg ps pt i (j + 1) ≤ d := by
  have hv : dpv cfg ps pt (j + 1) = (dpCell cfg ps pt (dpTable cfg ps pt j) (j + 1)).1 := by
    unfold dpv
    rw [dpTable_getD_succ]
  have hv' : ((dpTable cfg ps pt j).getD i (none, none)).1 = some di := by
    rw [dpTable_getD_stable cfg ps pt j i (by omega)]
    exact hdi
  obtain ⟨dd, hdd, hle⟩ := dpCell_max cfg ps pt (dpTable cfg ps pt j) (j + 1) i di hij hv' hl
  exact ⟨dd, by rw [hv]; exact hdd, hle⟩

/-- Appending a segment to a partition adds its score. -/
theorem partScore_append (cfg : ChunkingConfig) (ps : List ℚ) (pt : List ℕ)
    (segs : List (ℕ × ℕ)) (i j : ℕ) :
    partScore cfg ps pt (segs ++ [(i, j)]) = partScore cfg ps pt segs + segScore cfg ps pt i j := by
  simp [partScore]

/-- Upper bound: `dp[j]` dominates the score of every legal partition of
`[0, j)`. -/
theorem dp_ub (cfg : ChunkingConfig) (ps : List ℚ) (pt : List ℕ) :
    ∀ (j : ℕ) (segs : List (ℕ × ℕ)), Partition j segs → partLegal cfg pt segs →
      ∃ d, dpv cfg ps pt j = some d ∧ partScore cfg ps pt segs ≤ d := by
  intro j segs hpart
  induction hpart with
  | nil =>
    intro _
    exact ⟨0, dpv_zero cfg ps pt, by simp [partScore]⟩
  | cons i j segs hp hij ih =>
    intro hleg
    have hleg' : partLegal cfg pt segs := fun p hp' => hleg p (by simp [hp'])
    obtain ⟨di, hdi, hlei⟩ := ih hleg'
    have hlegseg : (ComputePenalty cfg i j pt).2 = true := by
      have := hleg (i, j) (by simp)
      exact this
    obtain ⟨k, rfl⟩ : ∃ k, j = k + 1 := ⟨j - 1, by omega⟩
    obtain ⟨d, hd, hled⟩ := dpv_succ_max cfg ps pt k i di hij hdi hlegseg
    refine ⟨d, hd, ?_⟩
    rw [partScore_append]
    calc partScore cfg ps pt segs + segScore cfg ps pt i (k + 1)
        ≤ di + segScore cfg ps pt i (k + 1) := by linarith
      _ ≤ d := hled

/-- Feasibility: when every single-sentence segment is legal, `dp[j]` is
finite for every `j ≤ n` (the trivial partition is always available). -/
theorem dp_feasible (cfg : ChunkingConfig) (ps : List ℚ) (pt : List ℕ) (n : ℕ)
    (hleg1 : ∀ k, k < n → (ComputePenalty cfg k (k + 1) pt).2 = true) :
    ∀ j, j ≤ n → ∃ d, dpv cfg ps pt j = some d := by
  intro j
  induction j with
  | zero => exact fun _ => ⟨0, dpv_zero cfg ps pt⟩
  | succ k ih =>
    intro h
    obtain ⟨dk, hdk⟩ := ih (by omega)
    obtain ⟨d, hd, _⟩ := dpv_succ_max cfg ps pt k k dk (by omega) hdk (hleg1 k (by omega))
    exact ⟨d, hd⟩

/-- The reconstruction loop never visits position `0` with work left. -/
theorem backtrack_zero (tbl : List (Option ℚ × Option ℕ)) :
    ∀ fuel, backtrack tbl fuel 0 = [] := by
  intro fuel
  cases fuel <;> rfl

/-- Reconstruction: when `dp[j]` is finite, following the `start` pointers
from `j` yields a legal partition of `[0, j)` achieving exactly `dp[j]`. -/
theorem backtrack_spec (cfg : ChunkingConfig) (ps : List ℚ) (pt : List ℕ) (n : ℕ) :
    ∀ j, j ≤ n → ∀ fuel, j ≤ fuel → ∀ d, dpv cfg ps pt j = some d →
      Partition j ((backtrack (dpTable cfg ps pt n) fuel j).reverse) ∧
      partLegal cfg pt ((backtrack (dpTable cfg ps pt n) fuel j).reverse) ∧
      partScore cfg ps pt ((backtrack (dpTable cfg ps pt n) fuel j).reverse) = d := by
  intro j
  induction j using Nat.strong_induction_on with
  | _ j IH =>
    match j with
    | 0 =>
      intro _ fuel _ d hd
      rw [backtrack_zero]
      have hd0 : d = 0 := by
        have := dpv_zero cfg ps pt
        rw [this] at hd
        exact (Option.some_injective _ hd).symm
      subst hd0
      exact ⟨Partition.nil, fun p hp => absurd hp (List.not_mem_nil p), by simp [partScore]⟩
    | pos + 1 =>
      intro hjn fuel hfuel d hd
      obtain ⟨i, di, hstart, hij, hleg, hdi, hsum⟩ :=
        (dpv_succ_sound cfg ps pt pos).2 d hd
      obtain ⟨f, rfl⟩ : ∃ f, fuel = f + 1 := ⟨fuel - 1, by omega⟩
      have htbl : ((dpTable cfg ps pt n).getD (pos + 1) (none, none)).2 = some i := by
        rw [dpTable_getD_stable cfg ps pt n (pos + 1) hjn]
        exact hstart
      have hbt : backtrack (dpTable cfg ps pt n) (f + 1) (pos + 1)
          = (i, pos + 1) :: backtrack (dpTable cfg ps pt n) f i := by
        conv_lhs => rw [backtrack]
        rw [htbl]
      obtain ⟨hp, hl, hs⟩ := IH i (by omega) (by omega) f (by omega) di hdi
      rw [hbt]
      rw [List.reverse_cons]
      refine ⟨Partition.cons i (pos + 1) _ hp hij, ?_, ?_⟩
      · intro p hpmem
        rcases List.mem_append.mp hpmem with h | h
        · exact hl p h
        · have : p = (i, pos + 1) := by simpa using h
          subst this
          exact hleg
      · rw [partScore_append, hs, hsum]

/-! ## Sanity-check loop characterizations -/

/-- The oversize scan succeeds exactly when every sentence fits in `MaxSize`. -/
theorem firstOversize_none_iff (cfg : ChunkingConfig) :
    ∀ (l : List Sentence) (k : ℕ),
      firstOversize cfg l k = none ↔ ∀ s ∈ l, s.TokenCount ≤ cfg.MaxSize := by
  intro l
  induction l with
  | nil => intro k; simp [firstOversize]
  | cons s rest ih =>
    intro k
    by_cases h : s.TokenCount > cfg.MaxSize
    · simp [firstOversize, h]
    · simp [firstOversize, h, ih (k + 1)]
      intro _
      omega

/-- A hit of the oversize scan names an offending sentence index. -/
theorem firstOversize_some (cfg : ChunkingConfig) :
    ∀ (l : List Sentence) (k idx tc : ℕ), firstOversize cfg l k = some (idx, tc) →
      ∃ m, m < l.length ∧ idx = k + m ∧ (l.getD m blankSentence).TokenCount = tc ∧
        tc > cfg.MaxSize := by
  intro l
  induction l with
  | nil => intro k idx tc h; simp [firstOversize] at h
  | cons s rest ih =>
    intro k idx tc h
    by_cases hs : s.TokenCount > cfg.MaxSize
    · simp [firstOversize, hs] at h
      obtain ⟨hk, htc⟩ := h
      exact ⟨0, by simp, by omega, by simpa [List.getD] using htc, by omega⟩
    · simp only [firstOversize, if_neg hs] at h
      obtain ⟨m, hm, hidx, hgd, htc⟩ := ih (k + 1) idx tc h
      exact ⟨m + 1, by simpa using hm, by omega, by simpa using hgd, htc⟩

/-- When every embedding is present the similarity loop succeeds. -/
theorem simLoop_ok (cos : List ℚ → List ℚ → ℚ) :
    ∀ (l : List Sentence) (k : ℕ), (∀ s ∈ l, s.Embedding ≠ none) →
      ∃ r, simLoop cos l k = .ok r := by
  intro l
  induction l with
  | nil => intro k _; exact ⟨[], rfl⟩
  | cons s rest ih =>
    intro k h
    cases rest with
    | nil => exact ⟨[], rfl⟩
    | cons s2 rest2 =>
      have h1 : s.Embedding ≠ none := h s (by simp)
      have h2 : ∀ x ∈ s2 :: rest2, x.Embedding ≠ none := fun x hx => h x (by simp [hx])
      obtain ⟨a, ha⟩ := Option.ne_none_iff_exists'.mp h1
      obtain ⟨b, hb⟩ := Option.ne_none_iff_exists'.mp (h2 s2 (by simp))
      obtain ⟨tail, htail⟩ := ih (k + 1) h2
      refine ⟨cos a b :: tail, ?_⟩
      simp only [simLoop, ha, hb, htail]

/-- A similarity-loop failure names a sentence with a missing embedding. -/
theorem simLoop_error (cos : List ℚ → List ℚ → ℚ) :
    ∀ (l : List Sentence) (k : ℕ) (e : ChunkError), simLoop cos l k = .error e →
      ∃ m, m < l.length ∧ e = .nilEmbedding (k + m) ∧
        (l.getD m blankSentence).Embedding = none := by
  intro l
  induction l with
  | nil => intro k e h; simp [simLoop] at h
  | cons s rest ih =>
    intro k e h
    cases rest with
    | nil => simp [simLoop] at h
    | cons s2 rest2 =>
      cases ha : s.Embedding with
      | none =>
        simp only [simLoop, ha] at h
        have he : e = ChunkError.nilEmbedding k := by
          cases h
          rfl
        exact ⟨0, by simp, by simpa using he, by simpa [List.getD] using ha⟩
      | some a =>
        cases hb : s2.Embedding with
        | none =>
          simp only [simLoop, ha, hb] at h
          have he : e = ChunkError.nilEmbedding (k + 1) := by
            cases h
            rfl
          exact ⟨1, by simp, by simpa using he, by simpa [List.getD] using hb⟩
        | some b =>
          simp only [simLoop, ha, hb] at h
          cases hrec : simLoop cos (s2 :: rest2) (k + 1) with
          | error e2 =>
            rw [hrec] at h
            have he : e = e2 := by
              cases h
              rfl
            obtain ⟨m, hm, hnm, hgd⟩ := ih (k + 1) e2 hrec
            refine ⟨m + 1, by simpa using hm, ?_, by simpa using hgd⟩
            rw [he, hnm]
            congr 1
            omega
          | ok tail =>
            rw [hrec] at h
            simp at h

/-- Reading an entry of the similarity array produced by the loop. -/
theorem simLoop_getD (cos : List ℚ → List ℚ → ℚ) :
    ∀ (l : List Sentence) (k : ℕ) (r : List ℚ) (m : ℕ), simLoop cos l k = .ok r →
      m + 1 < l.length →
      ∃ a b, (l.getD m blankSentence).Embedding = some a ∧
        (l.getD (m + 1) blankSentence).Embedding = some b ∧ r.getD m 0 = cos a b := by
  intro l
  induction l with
  | nil => intro k r m _ hm; simp at hm
  | cons s rest ih =>
    intro k r m h hm
    cases rest with
    | nil => simp at hm
    | cons s2 rest2 =>
      cases ha : s.Embedding with
      | none => simp [simLoop, ha] at h
      | some a =>
        cases hb : s2.Embedding with
        | none => simp [simLoop, ha, hb] at h
        | some b =>
          simp only [simLoop, ha, hb] at h
          cases hrec : simLoop cos (s2 :: rest2) (k + 1) with
          | error e2 => rw [hrec] at h; simp at h
          | ok tail =>
            rw [hrec] at h
            simp only at h
            have hr : r = cos a b :: tail := by
              cases h
              rfl
            subst hr
            cases m with
            | zero =>
              exact ⟨a, b, by simpa [List.getD] using ha, by simpa [List.getD] using hb, rfl⟩
            | succ m' =>
              obtain ⟨a2, b2, ha2, hb2, hr2⟩ := ih (k + 1) tail m' hrec (by simpa using hm)
              exact ⟨a2, b2, by simpa using ha2, by simpa using hb2, by simpa using hr2⟩

/-- A legal partition's segments concatenate to the whole prefix. -/
theorem partition_flatten_run (sentences : List Sentence) :
    ∀ (j : ℕ) (segs : List (ℕ × ℕ)), Partition j segs →
      (segs.map (segRun sentences)).flatten = sentences.take j := by
  intro j segs hpart
  induction hpart with
  | nil => simp
  | cons i j segs hp hij ih =>
    rw [List.map_append, List.flatten_append, ih]
    have hsplit := List.take_add sentences i (j - i)
    rw [show i + (j - i) = j by omega] at hsplit
    rw [hsplit]
    simp [segRun]

/-- The only partition of zero sentences is the empty one. -/
theorem partition_zero (segs : List (ℕ × ℕ)) (h : Partition 0 segs) : segs = [] := by
  cases h with
  | nil => rfl
  | cons i j segs hp hij => omega

/-- The only partition of one sentence is the single full segment. -/
theorem partition_one (segs : List (ℕ × ℕ)) (h : Partition 1 segs) : segs = [(0, 1)] := by
  cases h with
  | cons i j segs hp hij =>
    have hi : i = 0 := by omega
    subst hi
    rw [partition_zero segs hp]
    rfl

/-- Segments of a partition are non-degenerate and stay within bounds. -/
theorem partition_bounds :
    ∀ (n : ℕ) (segs : List (ℕ × ℕ)), Partition n segs →
      ∀ p ∈ segs, p.1 < p.2 ∧ p.2 ≤ n := by
  intro n segs hpart
  induction hpart with
  | nil => intro p hp; exact absurd hp (List.not_mem_nil p)
  | cons i j segs hp hij ih =>
    intro p hpmem
    rcases List.mem_append.mp hpmem with h | h
    · obtain ⟨h1, h2⟩ := ih p h
      exact ⟨h1, by omega⟩
    · have : p = (i, j) := by simpa using h
      subst this
      exact ⟨hij, le_refl j⟩

/-- Single-sentence segments are legal whenever every sentence fits. -/
theorem singletons_legal (cfg : ChunkingConfig) (sentences : List Sentence)
    (htok : ∀ s ∈ sentences, s.TokenCount ≤ cfg.MaxSize) :
    ∀ k, k < sentences.length →
      (ComputePenalty cfg k (k + 1) (buildPrefixTokens sentences)).2 = true := by
  intro k hk
  rw [legal_iff_tokens_le, singleSeg_tokens sentences k hk]
  refine htok _ ?_
  rw [List.getD_eq_getElem sentences blankSentence hk]
  exact List.getElem_mem hk

/-- On the ≥ 2-sentence path with both sanity checks passing, the chunker
reaches the reconstruction branch: `dp[n]` is finite and the result is the
reconstructed chunk list. -/
theorem extract_big_ok (cos : List ℚ → List ℚ → ℚ) (cfg : ChunkingConfig)
    (s1 s2 : Sentence) (rest : List Sentence)
    (hfo : firstOversize cfg (s1 :: s2 :: rest) 0 = none)
    (rawSim : List ℚ) (hsl : simLoop cos (s1 :: s2 :: rest) 0 = .ok rawSim) :
    ∃ d, dpv cfg (buildPrefixSim (normalizeSims rawSim))
        (buildPrefixTokens (s1 :: s2 :: rest)) (s1 :: s2 :: rest).length = some d ∧
      ExtractChunksFromSentences cos cfg (s1 :: s2 :: rest)
        = .ok ((dpSegments cfg (buildPrefixSim (normalizeSims rawSim))
            (buildPrefixTokens (s1 :: s2 :: rest)) (s1 :: s2 :: rest).length).enum.map
              fun p => mkChunk (s1 :: s2 :: rest) p.2 p.1) := by
  have htok := (firstOversize_none_iff cfg (s1 :: s2 :: rest) 0).mp hfo
  have hleg1 := singletons_legal cfg (s1 :: s2 :: rest) htok
  obtain ⟨d, hd⟩ := dp_feasible cfg (buildPrefixSim (normalizeSims rawSim))
    (buildPrefixTokens (s1 :: s2 :: rest)) (s1 :: s2 :: rest).length hleg1
    (s1 :: s2 :: rest).length le_rfl
  refine ⟨d, hd, ?_⟩
  have hlen : (s1 :: s2 :: rest).length = rest.length + 1 + 1 := by simp
  obtain ⟨i, di, hstart, _, _, _, _⟩ :=
    (dpv_succ_sound cfg (buildPrefixSim (normalizeSims rawSim))
      (buildPrefixTokens (s1 :: s2 :: rest)) (rest.length + 1)).2 d (by rw [← hlen]; exact hd)
  unfold dpv at hd
  unfold startv at hstart
  simp only [ExtractChunksFromSentences]
  rw [hfo]
  dsimp only
  rw [hsl]
  dsimp only
  simp only [List.length_cons] at hd hstart ⊢
  rw [hd, hstart]
  rfl

/-- Inversion of a successful run on ≥ 2 sentences: both sanity checks passed,
`dp[n]` is finite, and the chunks are the reconstructed ones. -/
theorem extract_big_ok_inv (cos : List ℚ → List ℚ → ℚ) (cfg : ChunkingConfig)
    (s1 s2 : Sentence) (rest : List Sentence) (chunks : List Chunk)
    (hok : ExtractChunksFromSentences cos cfg (s1 :: s2 :: rest) = .ok chunks) :
    ∃ rawSim d,
      firstOversize cfg (s1 :: s2 :: rest) 0 = none ∧
      simLoop cos (s1 :: s2 :: rest) 0 = .ok rawSim ∧
      dpv cfg (buildPrefixSim (normalizeSims rawSim))
        (buildPrefixTokens (s1 :: s2 :: rest)) (s1 :: s2 :: rest).length = some d ∧
      chunks = ((dpSegments cfg (buildPrefixSim (normalizeSims rawSim))
          (buildPrefixTokens (s1 :: s2 :: rest)) (s1 :: s2 :: rest).length).enum.map
            fun p => mkChunk (s1 :: s2 :: rest) p.2 p.1) := by
  cases hfo : firstOversize cfg (s1 :: s2 :: rest) 0 with
  | some v =>
    exfalso
    obtain ⟨idx, tc⟩ := v
    simp only [ExtractChunksFromSentences] at hok
    rw [hfo] at hok
    exact absurd hok (by simp)
  | none =>
    cases hsl : simLoop cos (s1 :: s2 :: rest) 0 with
    | error e =>
      exfalso
      simp only [ExtractChunksFromSentences] at hok
      rw [hfo] at hok
      dsimp only at hok
      rw [hsl] at hok
      exact absurd hok (by simp)
    | ok rawSim =>
      obtain ⟨d, hd, hext⟩ := extract_big_ok cos cfg s1 s2 rest hfo rawSim hsl
      rw [hext] at hok
      refine ⟨rawSim, d, rfl, rfl, hd, ?_⟩
      cases hok
      rfl

/-! ## C1 — DP optimality -/

/-- **C1 (confirmed).**  For every sentence sequence with non-nil embeddings
and token counts at most `MaxSize`, `ExtractChunksFromSentences` succeeds, and
the partition it reconstructs (`dpSegments`) is a legal partition into
contiguous segments whose total score — min-max-normalized adjacent-similarity
reward minus hinge penalty minus `λ_chunk` per chunk — dominates the score of
every other legal partition. -/
theorem C1_dp_optimality (cos : List ℚ → List ℚ → ℚ) (cfg : ChunkingConfig)
    (sentences : List Sentence)
    (hemb : ∀ s ∈ sentences, s.Embedding ≠ none)
    (htok : ∀ s ∈ sentences, s.TokenCount ≤ cfg.MaxSize) :
    ∃ rawSim chunks,
      simLoop cos sentences 0 = .ok rawSim ∧
      ExtractChunksFromSentences cos cfg sentences = .ok chunks ∧
      Partition sentences.length
        (dpSegments cfg (buildPrefixSim (normalizeSims rawSim))
          (buildPrefixTokens sentences) sentences.length) ∧
      partLegal cfg (buildPrefixTokens sentences)
        (dpSegments cfg (buildPrefixSim (normalizeSims rawSim))
          (buildPrefixTokens sentences) sentences.length) ∧
      chunks.length = (dpSegments cfg (buildPrefixSim (normalizeSims rawSim))
          (buildPrefixTokens sentences) sentences.length).length ∧
      ∀ other, Partition sentences.length other →
        partLegal cfg (buildPrefixTokens sentences) other →
        partScore cfg (buildPrefixSim (normalizeSims rawSim)) (buildPrefixTokens sentences) other
          ≤ partScore cfg (buildPrefixSim (normalizeSims rawSim)) (buildPrefixTokens sentences)
              (dpSegments cfg (buildPrefixSim (normalizeSims rawSim))
                (buildPrefixTokens sentences) sentences.length) := by
  obtain ⟨rawSim, hsl⟩ := simLoop_ok cos sentences 0 hemb
  have hleg1 := singletons_legal cfg sentences htok
  obtain ⟨d, hd⟩ := dp_feasible cfg (buildPrefixSim (normalizeSims rawSim))
    (buildPrefixTokens sentences) sentences.length hleg1 sentences.length le_rfl
  obtain ⟨hpart, hlegal, hscore⟩ := backtrack_spec cfg (buildPrefixSim (normalizeSims rawSim))
    (buildPrefixTokens sentences) sentences.length sentences.length le_rfl
    sentences.length le_rfl d hd
  have hopt : ∀ other, Partition sentences.length other →
      partLegal cfg (buildPrefixTokens sentences) other →
      partScore cfg (buildPrefixSim (normalizeSims rawSim)) (buildPrefixTokens sentences) other
        ≤ partScore cfg (buildPrefixSim (normalizeSims rawSim)) (buildPrefixTokens sentences)
            (dpSegments cfg (buildPrefixSim (normalizeSims rawSim))
              (buildPrefixTokens sentences) sentences.length) := by
    intro other hop hol
    obtain ⟨d', hd', hle⟩ := dp_ub cfg (buildPrefixSim (normalizeSims rawSim))
      (buildPrefixTokens sentences) sentences.length other hop hol
    have hdd : d' = d := by
      rw [hd] at hd'
      exact (Option.some_injective _ hd').symm
    subst hdd
    unfold dpSegments
    rw [hscore]
    exact hle
  match sentences, hpart, hlegal, hopt, hsl with
  | [], hpart, hlegal, hopt, hsl =>
    exact ⟨rawSim, [], hsl, rfl, hpart, hlegal, by simp [dpSegments, backtrack], hopt⟩
  | [s], hpart, hlegal, hopt, hsl =>
    refine ⟨rawSim, _, hsl, rfl, hpart, hlegal, ?_, hopt⟩
    have h1 := partition_one _ (by simpa using hpart)
    simp only [List.length_singleton]
    unfold dpSegments
    rw [h1]
    rfl
  | s1 :: s2 :: rest, hpart, hlegal, hopt, hsl =>
    have hfo : firstOversize cfg (s1 :: s2 :: rest) 0 = none :=
      (firstOversize_none_iff cfg (s1 :: s2 :: rest) 0).mpr htok
    obtain ⟨d2, hd2, hext⟩ := extract_big_ok cos cfg s1 s2 rest hfo rawSim hsl
    refine ⟨rawSim, _, hsl, hext, hpart, hlegal, ?_, hopt⟩
    simp

/-- **C1 witness.**  The optimality theorem applied to two concrete embedded
sentences under the default configuration. -/
theorem C1_dp_optimality_witness :
    (∀ s ∈ twoSentences, s.Embedding ≠ none) ∧
    (∀ s ∈ twoSentences, s.TokenCount ≤ DefaultChunkingConfig.MaxSize) ∧
    (∃ rawSim chunks,
      simLoop zeroCos twoSentences 0 = .ok rawSim ∧
      ExtractChunksFromSentences zeroCos DefaultChunkingConfig twoSentences = .ok chunks ∧
      Partition twoSentences.length
        (dpSegments DefaultChunkingConfig (buildPrefixSim (normalizeSims rawSim))
          (buildPrefixTokens twoSentences) twoSentences.length) ∧
      partLegal DefaultChunkingConfig (buildPrefixTokens twoSentences)
        (dpSegments DefaultChunkingConfig (buildPrefixSim (normalizeSims rawSim))
          (buildPrefixTokens twoSentences) twoSentences.length) ∧
      chunks.length = (dpSegments DefaultChunkingConfig (buildPrefixSim (normalizeSims rawSim))
          (buildPrefixTokens twoSentences) twoSentences.length).length ∧
      ∀ other, Partition twoSentences.length other →
        partLegal DefaultChunkingConfig (buildPrefixTokens twoSentences) other →
        partScore DefaultChunkingConfig (buildPrefixSim (normalizeSims rawSim))
            (buildPrefixTokens twoSentences) other
          ≤ partScore DefaultChunkingConfig (buildPrefixSim (normalizeSims rawSim))
              (buildPrefixTokens twoSentences)
              (dpSegments DefaultChunkingConfig (buildPrefixSim (normalizeSims rawSim))
                (buildPrefixTokens twoSentences) twoSentences.length)) :=
  ⟨by decide, by decide,
    C1_dp_optimality zeroCos DefaultChunkingConfig twoSentences (by decide) (by decide)⟩

/-! ## C2 — chunk token bound -/

/-- A member of an enumerated list projects to a member of the list. -/
theorem mem_of_mem_enum {α : Type} (l : List α) (p : ℕ × α) (h : p ∈ l.enum) : p.2 ∈ l := by
  rw [List.enum_eq_zip_range] at h
  obtain ⟨c1, c2⟩ := p
  exact (List.of_mem_zip h).2

/-- **C2, counterexample.**  On a single sentence of 600 tokens the chunker
returns without error a chunk of 600 tokens — above the default `MaxSize` of
512 — because the single-sentence fast path precedes the sanity check. -/
theorem C2_counterexample :
    ExtractChunksFromSentences zeroCos DefaultChunkingConfig [oversizeSentence]
      = .ok [{ Text := "x", StartTime := "00:00:00,000", Embedding := none,
               NumSentences := 1, TokenCount := 600, ChunkIndex := 0,
               SentenceEmbeddings := [none] }] ∧
    600 > DefaultChunkingConfig.MaxSize :=
  ⟨rfl, by decide⟩

/-- **C2, amended (confirmed as amended).**  For every input on which
`ExtractChunksFromSentences` returns without error *and whose sentences all
have token count at most `cfg.MaxSize`*, every returned chunk's `TokenCount`
— the sum of its sentences' token counts — is at most `cfg.MaxSize`.  (The
original claim fails only on the single-sentence fast path, which skips the
sanity check.) -/
theorem C2_token_bound (cos : List ℚ → List ℚ → ℚ) (cfg : ChunkingConfig)
    (sentences : List Sentence) (chunks : List Chunk)
    (hok : ExtractChunksFromSentences cos cfg sentences = .ok chunks)
    (htok : ∀ s ∈ sentences, s.TokenCount ≤ cfg.MaxSize) :
    ∀ c ∈ chunks, c.TokenCount ≤ cfg.MaxSize := by
  match sentences, hok, htok with
  | [], hok, htok =>
    have h0 : (Except.ok [] : Except ChunkError (List Chunk)) = .ok chunks := hok
    cases h0
    intro c hc
    exact absurd hc (List.not_mem_nil c)
  | [s], hok, htok =>
    have h0 := hok
    simp only [ExtractChunksFromSentences, Except.ok.injEq] at h0
    intro c hc
    rw [← h0] at hc
    have hce := List.mem_singleton.mp hc
    subst hce
    simpa using htok s (by simp)
  | s1 :: s2 :: rest, hok, htok =>
    obtain ⟨rawSim, d, hfo, hsl, hd, hchunks⟩ :=
      extract_big_ok_inv cos cfg s1 s2 rest chunks hok
    subst hchunks
    obtain ⟨hpart, hlegal, _⟩ := backtrack_spec cfg (buildPrefixSim (normalizeSims rawSim))
      (buildPrefixTokens (s1 :: s2 :: rest)) (s1 :: s2 :: rest).length
      (s1 :: s2 :: rest).length le_rfl (s1 :: s2 :: rest).length le_rfl d hd
    intro c hc
    obtain ⟨p, hp, rfl⟩ := List.mem_map.mp hc
    have hpseg : p.2 ∈ dpSegments cfg (buildPrefixSim (normalizeSims rawSim))
        (buildPrefixTokens (s1 :: s2 :: rest)) (s1 :: s2 :: rest).length :=
      mem_of_mem_enum _ p hp
    have hbounds := partition_bounds (s1 :: s2 :: rest).length _ hpart p.2 hpseg
    have hleg : (ComputePenalty cfg p.2.1 p.2.2 (buildPrefixTokens (s1 :: s2 :: rest))).2 = true :=
      hlegal p.2 hpseg
    rw [legal_iff_tokens_le] at hleg
    have htoks := segTokens_eq_run (s1 :: s2 :: rest) p.2.1 p.2.2
      (le_of_lt hbounds.1) hbounds.2
    show ((segRun (s1 :: s2 :: rest) p.2).map Sentence.TokenCount).sum ≤ cfg.MaxSize
    rw [show ((segRun (s1 :: s2 :: rest) p.2).map Sentence.TokenCount).sum
        = ((segRun (s1 :: s2 :: rest) (p.2.1, p.2.2)).map Sentence.TokenCount).sum by rfl]
    rw [← htoks]
    exact hleg

/-- **C2 witness.**  The amended bound applied to a concrete single embedded
sentence. -/
theorem C2_token_bound_witness :
    (ExtractChunksFromSentences zeroCos DefaultChunkingConfig oneSentence
      = .ok [{ Text := "a", StartTime := "", Embedding := some [1],
               NumSentences := 1, TokenCount := 10, ChunkIndex := 0,
               SentenceEmbeddings := [some [1]] }]) ∧
    (∀ s ∈ oneSentence, s.TokenCount ≤ DefaultChunkingConfig.MaxSize) ∧
    (∀ c ∈ [({ Text := "a", StartTime := "", Embedding := some [1],
               NumSentences := 1, TokenCount := 10, ChunkIndex := 0,
               SentenceEmbeddings := [some [1]] } : Chunk)],
      c.TokenCount ≤ DefaultChunkingConfig.MaxSize) :=
  ⟨rfl, by decide,
    C2_token_bound zeroCos DefaultChunkingConfig oneSentence _ rfl (by decide)⟩

/-! ## C4 — chunks partition the sentence sequence -/

/-- **C4 (confirmed).**  Whenever the chunker succeeds, there is a partition
of the sentence sequence into contiguous segments such that: the segments'
sentence runs concatenate, in emission order, to exactly the input sentence
sequence; the returned chunks are in one-to-one correspondence with the
segments, each chunk carrying its run's joined text, first start time, run
length, token sum and embeddings; and the `ChunkIndex` fields are
`0, 1, …, K−1` in emission order. -/
theorem C4_partition (cos : List ℚ → List ℚ → ℚ) (cfg : ChunkingConfig)
    (sentences : List Sentence) (chunks : List Chunk)
    (hok : ExtractChunksFromSentences cos cfg sentences = .ok chunks) :
    ∃ segs : List (ℕ × ℕ),
      Partition sentences.length segs ∧
      (segs.map (segRun sentences)).flatten = sentences ∧
      chunks.map Chunk.ChunkIndex = List.range chunks.length ∧
      chunks.length = segs.length ∧
      chunks.map Chunk.SentenceEmbeddings
        = segs.map (fun sg => (segRun sentences sg).map Sentence.Embedding) ∧
      chunks.map Chunk.Text
        = segs.map (fun sg => joinSp ((segRun sentences sg).map Sentence.Text)) ∧
      chunks.map Chunk.NumSentences = segs.map (fun sg => (segRun sentences sg).length) ∧
      chunks.map Chunk.TokenCount
        = segs.map (fun sg => ((segRun sentences sg).map Sentence.TokenCount).sum) ∧
      chunks.map Chunk.StartTime
        = segs.map (fun sg => ((segRun sentences sg).headD blankSentence).StartTime) := by
  match sentences, hok with
  | [], hok =>
    have h0 := hok
    simp only [ExtractChunksFromSentences, Except.ok.injEq] at h0
    subst h0
    exact ⟨[], Partition.nil, rfl, rfl, rfl, rfl, rfl, rfl, rfl, rfl⟩
  | [s], hok =>
    have h0 := hok
    simp only [ExtractChunksFromSentences, Except.ok.injEq] at h0
    subst h0
    refine ⟨[(0, 1)], ?_, rfl, rfl, rfl, rfl, rfl, rfl, rfl, rfl⟩
    have h := Partition.cons 0 1 [] Partition.nil (by omega)
    simpa using h
  | s1 :: s2 :: rest, hok =>
    obtain ⟨rawSim, d, hfo, hsl, hd, hchunks⟩ :=
      extract_big_ok_inv cos cfg s1 s2 rest chunks hok
    obtain ⟨hpart, _, _⟩ := backtrack_spec cfg (buildPrefixSim (normalizeSims rawSim))
      (buildPrefixTokens (s1 :: s2 :: rest)) (s1 :: s2 :: rest).length
      (s1 :: s2 :: rest).length le_rfl (s1 :: s2 :: rest).length le_rfl d hd
    have hpart' : Partition (s1 :: s2 :: rest).length
        (dpSegments cfg (buildPrefixSim (normalizeSims rawSim))
          (buildPrefixTokens (s1 :: s2 :: rest)) (s1 :: s2 :: rest).length) := hpart
    subst hchunks
    refine ⟨dpSegments cfg (buildPrefixSim (normalizeSims rawSim))
      (buildPrefixTokens (s1 :: s2 :: rest)) (s1 :: s2 :: rest).length, hpart', ?_, ?_, ?_, ?_, ?_, ?_, ?_, ?_⟩
    · rw [partition_flatten_run (s1 :: s2 :: rest) (s1 :: s2 :: rest).length _ hpart']
      exact List.take_length _
    · rw [List.map_map]
      rw [show (Chunk.ChunkIndex ∘ fun p => mkChunk (s1 :: s2 :: rest) p.2 p.1)
          = (fun p : ℕ × (ℕ × ℕ) => p.1) from rfl]
      have hfst : (fun p : ℕ × (ℕ × ℕ) => p.1) = (Prod.fst : ℕ × (ℕ × ℕ) → ℕ) := rfl
      rw [hfst, List.enum_map_fst]
      simp
    · simp
    · rw [List.map_map]
      rw [show (Chunk.SentenceEmbeddings ∘ fun p => mkChunk (s1 :: s2 :: rest) p.2 p.1)
          = ((fun sg => (segRun (s1 :: s2 :: rest) sg).map Sentence.Embedding) ∘
              (Prod.snd : ℕ × (ℕ × ℕ) → ℕ × ℕ)) from rfl]
      rw [← List.map_map, List.enum_map_snd]
    · rw [List.map_map]
      rw [show (Chunk.Text ∘ fun p => mkChunk (s1 :: s2 :: rest) p.2 p.1)
          = ((fun sg => joinSp ((segRun (s1 :: s2 :: rest) sg).map Sentence.Text)) ∘
              (Prod.snd : ℕ × (ℕ × ℕ) → ℕ × ℕ)) from rfl]
      rw [← List.map_map, List.enum_map_snd]
    · rw [List.map_map]
      rw [show (Chunk.NumSentences ∘ fun p => mkChunk (s1 :: s2 :: rest) p.2 p.1)
          = ((fun sg => (segRun (s1 :: s2 :: rest) sg).length) ∘
              (Prod.snd : ℕ × (ℕ × ℕ) → ℕ × ℕ)) from rfl]
      rw [← List.map_map, List.enum_map_snd]
    · rw [List.map_map]
      rw [show (Chunk.TokenCount ∘ fun p => mkChunk (s1 :: s2 :: rest) p.2 p.1)
          = ((fun sg => ((segRun (s1 :: s2 :: rest) sg).map Sentence.TokenCount).sum) ∘
              (Prod.snd : ℕ × (ℕ × ℕ) → ℕ × ℕ)) from rfl]
      rw [← List.map_map, List.enum_map_snd]
    · rw [List.map_map]
      rw [show (Chunk.StartTime ∘ fun p => mkChunk (s1 :: s2 :: rest) p.2 p.1)
          = ((fun sg => ((segRun (s1 :: s2 :: rest) sg).headD blankSentence).StartTime) ∘
              (Prod.snd : ℕ × (ℕ × ℕ) → ℕ × ℕ)) from rfl]
      rw [← List.map_map, List.enum_map_snd]

/-! ## C6 — error conditions -/

/-- With at least two sentences, a successful similarity loop means every
embedding was present (every sentence takes part in some adjacent pair). -/
theorem simLoop_ok_embeddings (cos : List ℚ → List ℚ → ℚ) :
    ∀ (l : List Sentence) (k : ℕ) (r : List ℚ), 2 ≤ l.length →
      simLoop cos l k = .ok r → ∀ s ∈ l, s.Embedding ≠ none := by
  intro l
  induction l with
  | nil => intro k r hlen; simp at hlen
  | cons s rest ih =>
    intro k r hlen h
    cases rest with
    | nil => simp at hlen
    | cons s2 rest2 =>
      cases ha : s.Embedding with
      | none => simp [simLoop, ha] at h
      | some a =>
        cases hb : s2.Embedding with
        | none => simp [simLoop, ha, hb] at h
        | some b =>
          simp only [simLoop, ha, hb] at h
          cases hrec : simLoop cos (s2 :: rest2) (k + 1) with
          | error e => rw [hrec] at h; simp at h
          | ok tail =>
            intro x hx
            rcases List.mem_cons.mp hx with hxs | hx2
            · subst hxs
              simp [ha]
            · cases rest2 with
              | nil =>
                have : x = s2 := by simpa using hx2
                subst this
                simp [hb]
              | cons s3 rest3 =>
                exact ih (k + 1) tail (by simp) hrec x hx2

/-- **C6, counterexample.**  A single 600-token sentence with a `nil`
embedding is an offending input, yet the chunker returns it as a chunk
without error: the single-sentence fast path skips both validations, so the
claimed "if and only if" fails as stated. -/
theorem C6_counterexample :
    offendingAt DefaultChunkingConfig [oversizeSentence] 0 ∧
    ExtractChunksFromSentences zeroCos DefaultChunkingConfig [oversizeSentence]
      = .ok [{ Text := "x", StartTime := "00:00:00,000", Embedding := none,
               NumSentences := 1, TokenCount := 600, ChunkIndex := 0,
               SentenceEmbeddings := [none] }] := by
  constructor
  · refine ⟨by decide, ?_⟩
    left
    decide
  · rfl

/-- **C6, amended (confirmed as amended).**  For every input *other than a
single sentence*, `ExtractChunksFromSentences` returns an error if and only
if some sentence's token count exceeds `cfg.MaxSize` or some sentence's
embedding is `nil`; the error names an offending sentence index.  (The
single-sentence fast path returns its chunk without any validation.) -/
theorem C6_error_iff (cos : List ℚ → List ℚ → ℚ) (cfg : ChunkingConfig)
    (sentences : List Sentence) (hn : sentences.length ≠ 1) :
    ((∃ e, ExtractChunksFromSentences cos cfg sentences = .error e) ↔
      ∃ idx, offendingAt cfg sentences idx) ∧
    (∀ e, ExtractChunksFromSentences cos cfg sentences = .error e →
      ∃ idx, offendingAt cfg sentences idx ∧
        (e = .sentenceTooLarge idx (sentences.getD idx blankSentence).TokenCount cfg.MaxSize ∨
         e = .nilEmbedding idx)) := by
  match sentences, hn with
  | [], hn =>
    constructor
    · constructor
      · intro ⟨e, he⟩
        exact absurd he (by simp [ExtractChunksFromSentences])
      · intro ⟨idx, hoff⟩
        exact absurd hoff.1 (by simp)
    · intro e he
      exact absurd he (by simp [ExtractChunksFromSentences])
  | [s], hn => simp at hn
  | s1 :: s2 :: rest, hn =>
    cases hfo : firstOversize cfg (s1 :: s2 :: rest) 0 with
    | some v =>
      obtain ⟨idx, tc⟩ := v
      have hext : ExtractChunksFromSentences cos cfg (s1 :: s2 :: rest)
          = .error (.sentenceTooLarge idx tc cfg.MaxSize) := by
        simp only [ExtractChunksFromSentences]
        rw [hfo]
      obtain ⟨m, hm, hidx, hgd, htc⟩ := firstOversize_some cfg _ 0 idx tc hfo
      have hidx' : idx = m := by omega
      subst hidx'
      have hoff : offendingAt cfg (s1 :: s2 :: rest) idx := by
        refine ⟨hm, Or.inl ?_⟩
        rw [hgd]
        exact htc
      constructor
      · exact iff_of_true ⟨_, hext⟩ ⟨idx, hoff⟩
      · intro e he
        rw [hext] at he
        have he' : e = ChunkError.sentenceTooLarge idx tc cfg.MaxSize := by
          cases he
          rfl
        refine ⟨idx, hoff, Or.inl ?_⟩
        rw [he', hgd]
    | none =>
      have htok := (firstOversize_none_iff cfg (s1 :: s2 :: rest) 0).mp hfo
      cases hsl : simLoop cos (s1 :: s2 :: rest) 0 with
      | error e0 =>
        have hext : ExtractChunksFromSentences cos cfg (s1 :: s2 :: rest) = .error e0 := by
          simp only [ExtractChunksFromSentences]
          rw [hfo]
          dsimp only
          rw [hsl]
        obtain ⟨m, hm, he0, hgd⟩ := simLoop_error cos _ 0 e0 hsl
        have he0' : e0 = ChunkError.nilEmbedding m := by
          rw [he0]
          congr 1
          omega
        have hoff : offendingAt cfg (s1 :: s2 :: rest) m := ⟨hm, Or.inr hgd⟩
        constructor
        · exact iff_of_true ⟨_, hext⟩ ⟨m, hoff⟩
        · intro e he
          rw [hext] at he
          have he' : e = e0 := by
            cases he
            rfl
          exact ⟨m, hoff, Or.inr (by rw [he', he0'])⟩
      | ok rawSim =>
        obtain ⟨d, hd, hext⟩ := extract_big_ok cos cfg s1 s2 rest hfo rawSim hsl
        have hembs := simLoop_ok_embeddings cos (s1 :: s2 :: rest) 0 rawSim (by simp) hsl
        have hnooff : ¬ ∃ idx, offendingAt cfg (s1 :: s2 :: rest) idx := by
          intro ⟨idx, hlt, hbad⟩
          have hmem : (s1 :: s2 :: rest).getD idx blankSentence ∈ s1 :: s2 :: rest := by
            rw [List.getD_eq_getElem _ blankSentence hlt]
            exact List.getElem_mem hlt
          rcases hbad with hbig | hnil
          · exact absurd (htok _ hmem) (by omega)
          · exact absurd hnil (hembs _ hmem)
        constructor
        · refine iff_of_false ?_ hnooff
          intro ⟨e, he⟩
          rw [hext] at he
          exact absurd he (by simp)
        · intro e he
          rw [hext] at he
          exact absurd he (by simp)

/-- **C6 witness.**  The amended characterization applied to two concrete
sentences, one of which is missing its embedding. -/
theorem C6_error_iff_witness :
    ([wSentence "a" 10 [1], oversizeSentence].length ≠ 1) ∧
    (((∃ e, ExtractChunksFromSentences zeroCos DefaultChunkingConfig
        [wSentence "a" 10 [1], oversizeSentence] = .error e) ↔
      ∃ idx, offendingAt DefaultChunkingConfig [wSentence "a" 10 [1], oversizeSentence] idx) ∧
    (∀ e, ExtractChunksFromSentences zeroCos DefaultChunkingConfig
        [wSentence "a" 10 [1], oversizeSentence] = .error e →
      ∃ idx, offendingAt DefaultChunkingConfig [wSentence "a" 10 [1], oversizeSentence] idx ∧
        (e = .sentenceTooLarge idx
          ([wSentence "a" 10 [1], oversizeSentence].getD idx blankSentence).TokenCount
          DefaultChunkingConfig.MaxSize ∨
         e = .nilEmbedding idx))) :=
  ⟨by decide,
    C6_error_iff zeroCos DefaultChunkingConfig [wSentence "a" 10 [1], oversizeSentence] (by decide)⟩

/-- **C4 witness.**  The partition property applied to a concrete
single-sentence input. -/
theorem C4_partition_witness :
    (ExtractChunksFromSentences zeroCos DefaultChunkingConfig oneSentence = .ok [oneChunk]) ∧
    (∃ segs : List (ℕ × ℕ),
      Partition oneSentence.length segs ∧
      (segs.map (segRun oneSentence)).flatten = oneSentence ∧
      [oneChunk].map Chunk.ChunkIndex = List.range [oneChunk].length ∧
      [oneChunk].length = segs.length ∧
      [oneChunk].map Chunk.SentenceEmbeddings
        = segs.map (fun sg => (segRun oneSentence sg).map Sentence.Embedding) ∧
      [oneChunk].map Chunk.Text
        = segs.map (fun sg => joinSp ((segRun oneSentence sg).map Sentence.Text)) ∧
      [oneChunk].map Chunk.NumSentences = segs.map (fun sg => (segRun oneSentence sg).length) ∧
      [oneChunk].map Chunk.TokenCount
        = segs.map (fun sg => ((segRun oneSentence sg).map Sentence.TokenCount).sum) ∧
      [oneChunk].map Chunk.StartTime
        = segs.map (fun sg => ((segRun oneSentence sg).headD blankSentence).StartTime)) :=
  ⟨rfl, C4_partition zeroCos DefaultChunkingConfig oneSentence [oneChunk] rfl⟩

/-! ## C10 — degenerate cosine pairs are silenced -/

/-- **C10 (confirmed).**  When an adjacent embedding pair falls in an error
branch of `CosineSimilarity` (length mismatch, empty vectors, or zero norm),
the chunker — which discards the error return — records `0` as that pair's
raw similarity and still succeeds, rather than reporting the degenerate
embeddings. -/
theorem C10_degenerate_cosine (cos : List ℚ → List ℚ → ℚ) (hcm : CosineModel cos)
    (cfg : ChunkingConfig) (sentences : List Sentence)
    (htok : ∀ s ∈ sentences, s.TokenCount ≤ cfg.MaxSize)
    (hemb : ∀ s ∈ sentences, s.Embedding ≠ none)
    (m : ℕ) (hm : m + 1 < sentences.length)
    (a b : List ℚ)
    (ha : (sentences.getD m blankSentence).Embedding = some a)
    (hb : (sentences.getD (m + 1) blankSentence).Embedding = some b)
    (hdeg : cosineDefined a b = false) :
    ∃ rawSim chunks,
      simLoop cos sentences 0 = .ok rawSim ∧
      rawSim.getD m 0 = 0 ∧
      ExtractChunksFromSentences cos cfg sentences = .ok chunks := by
  obtain ⟨rawSim, hsl⟩ := simLoop_ok cos sentences 0 hemb
  obtain ⟨a', b', ha', hb', hr⟩ := simLoop_getD cos sentences 0 rawSim m hsl hm
  have haa : a' = a := by
    rw [ha] at ha'
    exact (Option.some_injective _ ha').symm
  have hbb : b' = b := by
    rw [hb] at hb'
    exact (Option.some_injective _ hb').symm
  match sentences, hsl, htok, hm with
  | s1 :: s2 :: rest, hsl, htok, hm =>
    have hfo : firstOversize cfg (s1 :: s2 :: rest) 0 = none :=
      (firstOversize_none_iff cfg (s1 :: s2 :: rest) 0).mpr htok
    obtain ⟨d, hd, hext⟩ := extract_big_ok cos cfg s1 s2 rest hfo rawSim hsl
    refine ⟨rawSim, _, hsl, ?_, hext⟩
    rw [hr, haa, hbb]
    exact hcm a b hdeg
  | [], hsl, htok, hm => simp at hm
  | [s], hsl, htok, hm => simp at hm

/-- **C10 witness.**  Two sentences whose embeddings are empty vectors — an
error branch of `CosineSimilarity` — chunked successfully. -/
theorem C10_degenerate_cosine_witness :
    CosineModel zeroCos ∧
    (∀ s ∈ [wSentence "a" 5 [], wSentence "b" 5 []],
      s.TokenCount ≤ DefaultChunkingConfig.MaxSize) ∧
    (∀ s ∈ [wSentence "a" 5 [], wSentence "b" 5 []], s.Embedding ≠ none) ∧
    (0 + 1 < ([wSentence "a" 5 [], wSentence "b" 5 []] : List Sentence).length) ∧
    cosineDefined [] [] = false ∧
    (∃ rawSim chunks,
      simLoop zeroCos [wSentence "a" 5 [], wSentence "b" 5 []] 0 = .ok rawSim ∧
      rawSim.getD 0 0 = 0 ∧
      ExtractChunksFromSentences zeroCos DefaultChunkingConfig
        [wSentence "a" 5 [], wSentence "b" 5 []] = .ok chunks) :=
  ⟨fun _ _ _ => rfl, by decide, by decide, by decide, by decide,
    C10_degenerate_cosine zeroCos (fun _ _ _ => rfl) DefaultChunkingConfig
      [wSentence "a" 5 [], wSentence "b" 5 []] (by decide) (by decide) 0 (by decide)
      [] [] (by decide) (by decide) (by decide)⟩

/-! ## C3 — the oversize-split pass is missing -/

set_option maxRecDepth 100000 in
/-- **C3 (code bug).**  The spec (§4.1, invariant 7, scenario S4) requires
sentences exceeding `MaxSize` tokens to be replaced by greedy whitespace
sub-sentences, and the chunker's own error message blames
`ExtractSentencesFromFrames` when an oversize sentence reaches it — but the
assembly stage performs no split at all.  Under a tokenizer counting one
token per character, a single 520-character frame assembles into a single
520-token sentence, above the default `MaxSize` of 512, and is returned
unsplit. -/
theorem C3_no_oversize_split :
    ExtractSentencesFromFrames String.length
        [{ Text := longText, StartTime := "00:00:00,000", EndTime := "00:00:01,000" }]
      = [{ Text := longText, StartTime := "00:00:00,000", Embedding := none,
           TokenCount := 520 }] ∧
    520 > DefaultChunkingConfig.MaxSize :=
  ⟨rfl, by decide⟩

/-! ## C7 — greedy batch packing -/

/-- The running maximum over a list dominates the accumulator and every
member. -/
theorem foldl_max_facts :
    ∀ (xs : List ℕ) (acc : ℕ),
      acc ≤ xs.foldl max acc ∧ ∀ x ∈ xs, x ≤ xs.foldl max acc := by
  intro xs
  induction xs with
  | nil => intro acc; exact ⟨le_refl acc, by simp⟩
  | cons y ys ih =>
    intro acc
    obtain ⟨h1, h2⟩ := ih (max acc y)
    refine ⟨le_trans (le_max_left acc y) h1, ?_⟩
    intro x hx
    rcases List.mem_cons.mp hx with hxy | hxys
    · subst hxy
      exact le_trans (le_max_right acc x) h1
    · exact h2 x hxys

/-- Every batch member's token length is at most the batch's `maxLen`. -/
theorem mem_le_maxLen (l : List (String × ℕ)) (p : String × ℕ) (hp : p ∈ l) :
    p.2 ≤ maxLen l := by
  unfold maxLen
  exact (foldl_max_facts (l.map Prod.snd) 0).2 p.2 (List.mem_map_of_mem Prod.snd hp)

/-- The running maximum after appending one element. -/
theorem maxLen_append_singleton (l : List (String × ℕ)) (x : String × ℕ) :
    maxLen (l ++ [x]) = max (maxLen l) x.2 := by
  unfold maxLen
  rw [List.map_append, List.foldl_append]
  rfl

/-- The running maximum of a single element. -/
theorem maxLen_singleton (x : String × ℕ) : maxLen [x] = x.2 := by
  unfold maxLen
  simp

/-- The empty batch satisfies the prefix-budget condition vacuously. -/
theorem batchPrefixOK_nil (budget : ℕ) : batchPrefixOK budget [] := by
  intro r hr2 hrlen
  simp at hrlen
  omega

/-- A singleton batch satisfies the prefix-budget condition vacuously. -/
theorem batchPrefixOK_singleton (budget : ℕ) (x : String × ℕ) :
    batchPrefixOK budget [x] := by
  intro r hr2 hrlen
  simp at hrlen
  omega

/-- Growing a batch that passed the budget test preserves the prefix-budget
condition. -/
theorem batchPrefixOK_append (budget : ℕ) (cur : List (String × ℕ)) (x : String × ℕ)
    (hok : batchPrefixOK budget cur)
    (hcond : cur = [] ∨ (cur.length + 1) * max (maxLen cur) x.2 ≤ budget) :
    batchPrefixOK budget (cur ++ [x]) := by
  intro r hr2 hrlen
  rw [List.length_append, List.length_singleton] at hrlen
  rcases Nat.lt_or_ge r (cur.length + 1) with hlt | hge
  · rw [List.take_append_of_le_length (by omega)]
    exact hok r hr2 (by omega)
  · have hreq : r = cur.length + 1 := by omega
    subst hreq
    rw [List.take_of_length_le (by simp)]
    rw [maxLen_append_singleton]
    rcases hcond with h0 | hle
    · subst h0
      simp at hr2
    · exact hle

/-- A batch containing an element whose own token length exceeds the budget
is that element alone. -/
theorem batch_oversize_singleton (budget : ℕ) (b : List (String × ℕ)) (hne : b ≠ [])
    (hok : batchPrefixOK budget b) (p : String × ℕ) (hp : p ∈ b) (hbig : p.2 > budget) :
    b = [p] := by
  by_cases h2 : 2 ≤ b.length
  · exfalso
    have hb := hok b.length h2 le_rfl
    rw [List.take_length] at hb
    have hml := mem_le_maxLen b p hp
    have hmul : 2 * p.2 ≤ b.length * maxLen b := Nat.mul_le_mul h2 hml
    have hle : 2 * p.2 ≤ budget := le_trans hmul hb
    omega
  · have hlen1 : b.length = 1 := by
      cases b with
      | nil => exact absurd rfl hne
      | cons q t =>
        simp only [List.length_cons] at h2 ⊢
        omega
    obtain ⟨q, rfl⟩ := List.length_eq_one.mp hlen1
    have : p = q := by simpa using hp
    subst this
    rfl

/-- The batching loop invariant: starting from a partial batch `cur` that
satisfies the prefix-budget condition (with `curMax` its running maximum),
the produced batches concatenate to `cur ++ input`, are all non-empty, all
satisfy the prefix-budget condition, consecutive batches are separated by a
genuine budget violation, and the first produced batch extends `cur`. -/
theorem batchSplitGo_spec (budget : ℕ) :
    ∀ (input cur : List (String × ℕ)),
      batchPrefixOK budget cur →
      (batchSplitGo budget input cur (maxLen cur)).flatten = cur ++ input ∧
      (∀ b ∈ batchSplitGo budget input cur (maxLen cur), b ≠ []) ∧
      (∀ b ∈ batchSplitGo budget input cur (maxLen cur), batchPrefixOK budget b) ∧
      List.Chain' (batchSealed budget) (batchSplitGo budget input cur (maxLen cur)) ∧
      (∀ b' rest', batchSplitGo budget input cur (maxLen cur) = b' :: rest' → cur <+: b') := by
  intro input
  induction input with
  | nil =>
    intro cur hok
    by_cases hc : cur = []
    · subst hc
      refine ⟨rfl, ?_, ?_, ?_, ?_⟩ <;> simp [batchSplitGo]
    · have hce : cur.isEmpty = false := by simp [List.isEmpty_iff, hc]
      have hres : batchSplitGo budget [] cur (maxLen cur) = [cur] := by
        simp [batchSplitGo, hce]
      rw [hres]
      refine ⟨by simp, ?_, ?_, ?_, ?_⟩
      · intro b hb
        have : b = cur := by simpa using hb
        subst this
        exact hc
      · intro b hb
        have : b = cur := by simpa using hb
        subst this
        exact hok
      · simp
      · intro b' rest' hbr
        have hb : b' = cur := (List.cons.injEq _ _ _ _ ▸ hbr).1.symm
        subst hb
        exact List.prefix_refl _
  | cons x rest ih =>
    intro cur hok
    by_cases hcond : (decide (cur.length > 0) && decide ((cur.length + 1) * max (maxLen cur) x.2 > budget)) = true
    · have hres : batchSplitGo budget (x :: rest) cur (maxLen cur)
          = cur :: batchSplitGo budget rest [x] x.2 := by
        simp only [batchSplitGo]
        rw [if_pos hcond]
      simp only [Bool.and_eq_true, decide_eq_true_eq] at hcond
      obtain ⟨hpos, hbreak⟩ := hcond
      have hx2 : batchSplitGo budget rest [x] x.2 = batchSplitGo budget rest [x] (maxLen [x]) := by
        rw [maxLen_singleton]
      obtain ⟨ihf, ihne, ihok, ihch, ihpre⟩ := ih [x] (batchPrefixOK_singleton budget x)
      rw [hres, hx2]
      refine ⟨?_, ?_, ?_, ?_, ?_⟩
      · rw [List.flatten_cons, ihf]
        simp
      · intro b hb
        rcases List.mem_cons.mp hb with hbcur | hbrec
        · subst hbcur
          intro h0
          rw [h0] at hpos
          simp at hpos
        · exact ihne b hbrec
      · intro b hb
        rcases List.mem_cons.mp hb with hbcur | hbrec
        · subst hbcur
          exact hok
        · exact ihok b hbrec
      · rw [List.chain'_cons']
        refine ⟨?_, ihch⟩
        intro b hb
        cases hrec : batchSplitGo budget rest [x] (maxLen [x]) with
        | nil => rw [hrec] at hb; simp at hb
        | cons b0 rest0 =>
          rw [hrec] at hb
          have hb0 : b0 = b := by simpa using hb
          subst hb0
          have hpre := ihpre b0 rest0 hrec
          obtain ⟨t, ht⟩ := hpre
          intro y hy
          rw [← ht] at hy
          have hy' : x = y := by simpa using hy
          subst hy'
          exact hbreak
      · intro b' rest' hbr
        have hb : b' = cur := (List.cons.injEq _ _ _ _ ▸ hbr).1.symm
        subst hb
        exact List.prefix_refl _
    · have hres : batchSplitGo budget (x :: rest) cur (maxLen cur)
          = batchSplitGo budget rest (cur ++ [x]) (maxLen (cur ++ [x])) := by
        simp only [batchSplitGo]
        rw [if_neg (by exact fun h => hcond h)]
        rw [maxLen_append_singleton]
      have hcond' : cur = [] ∨ (cur.length + 1) * max (maxLen cur) x.2 ≤ budget := by
        simp only [Bool.and_eq_true, decide_eq_true_eq, not_and, not_lt] at hcond
        by_cases hc : cur = []
        · exact Or.inl hc
        · exact Or.inr (hcond (List.length_pos.mpr hc))
      obtain ⟨ihf, ihne, ihok, ihch, ihpre⟩ :=
        ih (cur ++ [x]) (batchPrefixOK_append budget cur x hok hcond')
      rw [hres]
      refine ⟨?_, ihne, ihok, ihch, ?_⟩
      · rw [ihf]
        simp
      · intro b' rest' hbr
        have := ihpre b' rest' hbr
        exact List.IsPrefix.trans ⟨[x], rfl⟩ this

/-- **C7 (confirmed).**  `embedBatches` consumes the texts in arrival order
in greedy batches: every batch is non-empty; each text joined a non-empty
batch only if `(batch_size + 1) × new_max_seq_len ≤ MaxBatchTokens` held at
that point (`batchPrefixOK`); consecutive batches are separated by a genuine
budget violation at the sealing candidate (`batchSealed`); a text whose own
token count exceeds the budget forms a degenerate single-element batch; the
batches concatenate to the input in order, and exactly one embedding is
returned per input text in input order. -/
theorem C7_embedBatches (embed : List String → List (List ℚ)) (budget : ℕ)
    (texts : List String) (tokenLengths : List ℕ)
    (hlen : tokenLengths.length = texts.length)
    (hembed : ∀ ts, (embed ts).length = ts.length) :
    (batchSplit budget (texts.zip tokenLengths)).flatten = texts.zip tokenLengths ∧
    (∀ b ∈ batchSplit budget (texts.zip tokenLengths), b ≠ []) ∧
    (∀ b ∈ batchSplit budget (texts.zip tokenLengths), batchPrefixOK budget b) ∧
    List.Chain' (batchSealed budget) (batchSplit budget (texts.zip tokenLengths)) ∧
    (∀ b ∈ batchSplit budget (texts.zip tokenLengths), ∀ p ∈ b, p.2 > budget → b = [p]) ∧
    embedBatches embed budget texts tokenLengths
      = .ok (((batchSplit budget (texts.zip tokenLengths)).map
          fun b => embed (b.map Prod.fst)).flatten) ∧
    (((batchSplit budget (texts.zip tokenLengths)).map
        fun b => embed (b.map Prod.fst)).flatten).length = texts.length := by
  obtain ⟨hf, hne, hok, hch, _⟩ :=
    batchSplitGo_spec budget (texts.zip tokenLengths) [] (batchPrefixOK_nil budget)
  have h0 : batchSplit budget (texts.zip tokenLengths)
      = batchSplitGo budget (texts.zip tokenLengths) [] (maxLen []) := rfl
  have hf' : (batchSplit budget (texts.zip tokenLengths)).flatten = texts.zip tokenLengths := by
    rw [h0, hf]
    rfl
  have hlenflat : ∀ bs : List (List (String × ℕ)),
      ((bs.map fun b => embed (b.map Prod.fst)).flatten).length = bs.flatten.length := by
    intro bs
    induction bs with
    | nil => rfl
    | cons b bs ih =>
      simp only [List.map_cons, List.flatten_cons, List.length_append, ih, hembed,
        List.length_map]
  refine ⟨hf', ?_, ?_, ?_, ?_, ?_, ?_⟩
  · rw [h0]; exact hne
  · rw [h0]; exact hok
  · rw [h0]; exact hch
  · rw [h0]
    intro b hb p hp hbig
    exact batch_oversize_singleton budget b (hne b hb) (hok b hb) p hp hbig
  · by_cases ht : texts.isEmpty = true
    · have htt : texts = [] := by
        cases texts with
        | nil => rfl
        | cons a l => simp at ht
      subst htt
      have hzl : tokenLengths = [] := by
        cases tokenLengths with
        | nil => rfl
        | cons a l => simp at hlen
      subst hzl
      rfl
    · simp only [embedBatches, ht, Bool.false_eq_true, if_false, hlen]
      simp
  · rw [hlenflat, hf']
    rw [List.length_zip, hlen]
    simp

/-- **C7 witness.**  The batching theorem applied to three concrete texts
with token lengths `[4, 4, 9]` under budget `10`: the greedy loop produces
batches `[("a",4), ("b",4)]` and `[("c",9)]`. -/
theorem C7_embedBatches_witness :
    (([4, 4, 9] : List ℕ).length = (["a", "b", "c"] : List String).length) ∧
    ((batchSplit 10 ((["a", "b", "c"] : List String).zip ([4, 4, 9] : List ℕ))).flatten
        = (["a", "b", "c"] : List String).zip ([4, 4, 9] : List ℕ) ∧
    (∀ b ∈ batchSplit 10 ((["a", "b", "c"] : List String).zip ([4, 4, 9] : List ℕ)), b ≠ []) ∧
    (∀ b ∈ batchSplit 10 ((["a", "b", "c"] : List String).zip ([4, 4, 9] : List ℕ)),
      batchPrefixOK 10 b) ∧
    List.Chain' (batchSealed 10)
      (batchSplit 10 ((["a", "b", "c"] : List String).zip ([4, 4, 9] : List ℕ))) ∧
    (∀ b ∈ batchSplit 10 ((["a", "b", "c"] : List String).zip ([4, 4, 9] : List ℕ)),
      ∀ p ∈ b, p.2 > 10 → b = [p]) ∧
    embedBatches constEmbed 10 ["a", "b", "c"] [4, 4, 9]
      = .ok (((batchSplit 10 ((["a", "b", "c"] : List String).zip ([4, 4, 9] : List ℕ))).map
          fun b => constEmbed (b.map Prod.fst)).flatten) ∧
    (((batchSplit 10 ((["a", "b", "c"] : List String).zip ([4, 4, 9] : List ℕ))).map
        fun b => constEmbed (b.map Prod.fst)).flatten).length
      = (["a", "b", "c"] : List String).length) :=
  ⟨rfl, C7_embedBatches constEmbed 10 ["a", "b", "c"] [4, 4, 9] rfl
    (fun ts => by simp [constEmbed])⟩

end Piazza
